import Mathlib

/-!
# Verification of the ChatVid-AI client utilities

This file gives a shallow embedding, over `List Char` / `String`, of the
text-processing utilities of the ChatVid-AI client:

* `parseTimestamp` / `formatTimestamp` / `escapeHtml` / `transformAnswer`
  from `client/components/ChatBox.tsx`;
* `parseTimestamp` / `formatTime` and the section rendering logic from
  `client/components/SectionList.tsx`;
* the fetch wrappers from `client/lib/api.ts` and the submit handlers /
  section loader from `ChatBox.tsx` and `app/chat/page.tsx`.

JavaScript `NaN` results of integer-valued computations are modelled as
`Option Int` with `none` playing the role of `NaN`.  JavaScript strings are
modelled as `List Char` (with `String` wrappers at the interface).  Each
regular-expression substitution of the source is modelled as a left-to-right
scan (`scanRx`) driven by a matcher that implements the concrete regex.
-/

set_option autoImplicit false

/-! ## JavaScript primitive helpers -/

/-- The JavaScript whitespace class (used by `String.prototype.trim` and by
leading-whitespace skipping in `parseInt`). -/
def jsWs (c : Char) : Bool :=
  c = ' ' || c = '\t' || c = '\n' || c = '\x0b' || c = '\x0c' || c = '\r' ||
  c = '\u00A0' || c = '\u1680' || ('\u2000' ≤ c && c ≤ '\u200A') ||
  c = '\u2028' || c = '\u2029' || c = '\u202F' || c = '\u205F' ||
  c = '\u3000' || c = '\uFEFF'

/-- JavaScript `String.prototype.trim`. -/
def jsTrim (s : List Char) : List Char :=
  ((s.dropWhile jsWs).reverse.dropWhile jsWs).reverse

/-- JavaScript `str.split(sep)` for a single-character separator: keeps empty
fragments, never returns an empty list (`"".split(":") == [""]`). -/
def jsSplit (sep : Char) : List Char → List (List Char)
  | [] => [[]]
  | c :: cs =>
    if c = sep then [] :: jsSplit sep cs
    else
      match jsSplit sep cs with
      | [] => [[c]]
      | h :: t => (c :: h) :: t

/-- Numeric value of a decimal digit character. -/
def digitVal (c : Char) : Nat := c.toNat - 48

/-- Value of a list of decimal digit characters. -/
def decValue (ds : List Char) : Nat :=
  ds.foldl (fun acc c => 10 * acc + digitVal c) 0

/-- JavaScript `parseInt(s, 10)`: skip leading whitespace, optional sign,
then the longest run of decimal digits; `NaN` (here `none`) when that run is
empty.  Trailing garbage is ignored. -/
def jsParseInt (s : List Char) : Option Int :=
  let t := s.dropWhile jsWs
  let st : Int × List Char :=
    match t with
    | c :: r => if c = '+' then (1, r) else if c = '-' then (-1, r) else (1, c :: r)
    | [] => (1, [])
  let ds := st.2.takeWhile Char.isDigit
  if ds.isEmpty then none else some (st.1 * (decValue ds : Int))

/-- Decimal digit character for a value `< 10` (JS number-to-string digits). -/
def digChar (n : Nat) : Char := Char.ofNat (48 + n)

/-- Fuel-driven accumulator loop behind `natToChars`. -/
def natToCharsGo : Nat → Nat → List Char → List Char
  | 0, _, acc => acc
  | fuel + 1, n, acc =>
    if n = 0 then acc else natToCharsGo fuel (n / 10) (digChar (n % 10) :: acc)

/-- Decimal rendering of a natural number, as JavaScript `String(n)` renders a
non-negative integer. -/
def natToChars (n : Nat) : List Char :=
  if n = 0 then ['0'] else natToCharsGo (n + 1) n []

/-- JavaScript `String(i)` for an integer. -/
def intToChars (i : Int) : List Char :=
  if i < 0 then '-' :: natToChars i.natAbs else natToChars i.toNat

/-- JavaScript `String(x)` for an integer-or-NaN value. -/
def numToChars : Option Int → List Char
  | none => ['N', 'a', 'N']
  | some i => intToChars i

/-- JavaScript `s.padStart(2, "0")`. -/
def padStart2 (s : List Char) : List Char :=
  if 2 ≤ s.length then s else List.replicate (2 - s.length) '0' ++ s

/-! ## Timestamp parsing and formatting (`ChatBox.tsx`, `SectionList.tsx`) -/

/-- `parseTimestamp` from `ChatBox.tsx` (the body is character-identical in
`SectionList.tsx`): split on `":"`, `parseInt` each part; `NaN` when any part
fails or the number of parts is not 2 or 3, otherwise the weighted sum of
seconds. -/
def parseTimestampL (ts : List Char) : Option Int :=
  let parts := (jsSplit ':' ts).map jsParseInt
  if parts.any (fun p => p.isNone) then none
  else
    match parts with
    | [some mm, some ss] => some (mm * 60 + ss)
    | [some hh, some mm, some ss] => some (hh * 3600 + mm * 60 + ss)
    | _ => none

/-- String-level wrapper for `parseTimestampL`. -/
def parseTimestamp (ts : String) : Option Int := parseTimestampL ts.data

/-- `parseTimestamp` from `SectionList.tsx`: it takes an optional argument and
first guards `if (!ts || typeof ts !== "string") return NaN` (so `undefined`
and the falsy empty string yield `NaN`), then runs the same body as the
`ChatBox.tsx` version. -/
def parseTimestampSL (ts : Option String) : Option Int :=
  match ts with
  | none => none
  | some s => if s = "" then none else parseTimestampL s.data

/-- The arithmetic core shared by both formatters on a non-negative number of
seconds: `hrs = ⌊n/3600⌋`, `mins = ⌊(n % 3600)/60⌋`, `secs = n % 60`, rendered
as `H:MM:SS` when `hrs > 0` and `M:SS` otherwise.  For natural `n` the
JavaScript float operations `Math.floor(n/3600)` and `n % 3600` agree with
`Nat` division and modulus. -/
def formatCore (n : Nat) : List Char :=
  let hrs := n / 3600
  let mins := n % 3600 / 60
  let secs := n % 60
  if hrs > 0 then
    natToChars hrs ++ ':' :: padStart2 (natToChars mins) ++
      ':' :: padStart2 (natToChars secs)
  else natToChars mins ++ ':' :: padStart2 (natToChars secs)

/-- `formatTimestamp` from `ChatBox.tsx`: `"0:00"` for negative or `NaN`
input, otherwise the `H:MM:SS` / `M:SS` rendering.  After the guard the value
is a non-negative integer, so the arithmetic is done in `Nat`. -/
def formatTimestampL : Option Int → List Char
  | none => "0:00".data
  | some s => if s < 0 then "0:00".data else formatCore s.toNat

/-- String-level wrapper for `formatTimestampL`. -/
def formatTimestamp (s : Option Int) : String := ⟨formatTimestampL s⟩

/-- JavaScript truncated remainder `a % b` (sign of the dividend) for a
positive modulus. -/
def tremZ (a b : Int) : Int := Int.sign a * (a.natAbs % b.natAbs : Nat)

/-- `formatTime` from `SectionList.tsx`: same rendering but with no
negative/NaN guard; `Math.floor` is floor division and `%` is the JavaScript
truncated remainder. -/
def formatTimeL (seconds : Int) : List Char :=
  let hrs := Int.fdiv seconds 3600
  let mins := Int.fdiv (tremZ seconds 3600) 60
  let secs := tremZ seconds 60
  if hrs > 0 then
    intToChars hrs ++ ':' :: padStart2 (intToChars mins) ++
      ':' :: padStart2 (intToChars secs)
  else intToChars mins ++ ':' :: padStart2 (intToChars secs)

/-- String-level wrapper for `formatTimeL`. -/
def formatTime (seconds : Int) : String := ⟨formatTimeL seconds⟩

/-! ## Spec-side canonical rendering

These definitions follow the specification's words, to be compared with the
source-derived formatters: the canonical `"H:MM:SS"`-or-`"M:SS"` string
denoting a given number of seconds (hours/minutes unpadded in the leading
position, later components zero-padded to two digits). -/

/-- Canonical rendering of a second count, as described by the spec. -/
def canonRender (n : Nat) : List Char :=
  if 3600 ≤ n then
    natToChars (n / 3600) ++ ':' :: padStart2 (natToChars (n % 3600 / 60)) ++
      ':' :: padStart2 (natToChars (n % 60))
  else natToChars (n / 60) ++ ':' :: padStart2 (natToChars (n % 60))

/-- Spec-side notion of "valid timestamp string with its normalized
rendering": exactly two or three colon-separated components, each parsing as
a non-negative integer; the result is the canonical rendering of the total
number of seconds the string denotes. -/
def normalizedRendering (s : String) : Option String :=
  match (jsSplit ':' s.data).map jsParseInt with
  | [some a, some b] =>
    if 0 ≤ a ∧ 0 ≤ b then some ⟨canonRender (a * 60 + b).toNat⟩ else none
  | [some a, some b, some c] =>
    if 0 ≤ a ∧ 0 ≤ b ∧ 0 ≤ c then
      some ⟨canonRender (a * 3600 + b * 60 + c).toNat⟩
    else none
  | _ => none

/-! ## Bridging lemmas for the formatters -/

theorem natToCharsGo_zero (fuel : Nat) (acc : List Char) :
    natToCharsGo fuel 0 acc = acc := by
  cases fuel <;> simp [natToCharsGo]

theorem formatCore_eq_canonRender (n : Nat) : formatCore n = canonRender n := by
  unfold formatCore canonRender
  by_cases h : 3600 ≤ n
  · have hpos : 0 < n / 3600 := Nat.div_pos h (by norm_num)
    simp [h, hpos]
  · have hlt : n < 3600 := Nat.lt_of_not_le h
    have hz : n / 3600 = 0 := Nat.div_eq_of_lt hlt
    have hm : n % 3600 = n := Nat.mod_eq_of_lt hlt
    simp [h, hz, hm]

theorem formatTimestampL_nonneg (t : Int) (ht : 0 ≤ t) :
    formatTimestampL (some t) = canonRender t.toNat := by
  have : ¬ t < 0 := not_lt.mpr ht
  simp [formatTimestampL, this, formatCore_eq_canonRender]

theorem tremZ_coe (m k : Nat) : tremZ (m : Int) (k : Int) = ((m % k : Nat) : Int) := by
  cases m with
  | zero => simp [tremZ]
  | succ m' =>
    unfold tremZ
    rw [Int.sign_eq_one_iff_pos.mpr (by exact_mod_cast Nat.succ_pos m'), one_mul,
      Int.natAbs_ofNat, Int.natAbs_ofNat]

theorem intToChars_coe (m : Nat) : intToChars (m : Int) = natToChars m := by
  simp [intToChars]

theorem formatTimeL_nonneg (t : Int) (ht : 0 ≤ t) :
    formatTimeL t = canonRender t.toNat := by
  obtain ⟨m, rfl⟩ := Int.eq_ofNat_of_zero_le ht
  rw [← formatCore_eq_canonRender]
  unfold formatTimeL formatCore
  rw [show (3600 : Int) = ((3600 : Nat) : Int) from rfl,
    show (60 : Int) = ((60 : Nat) : Int) from rfl,
    tremZ_coe, tremZ_coe, ← Int.ofNat_fdiv, ← Int.ofNat_fdiv]
  simp only [Int.toNat_natCast, intToChars_coe]
  by_cases h : 0 < m / 3600
  · rw [if_pos (show ((m / 3600 : Nat) : Int) > 0 from by exact_mod_cast h), if_pos h]
  · rw [if_neg (show ¬ ((m / 3600 : Nat) : Int) > 0 from by exact_mod_cast h), if_neg h]

/-! ## Parsing lemmas -/

theorem parse_two_aux (s : List Char) (mm ss : Int)
    (h : (jsSplit ':' s).map jsParseInt = [some mm, some ss]) :
    parseTimestampL s = some (mm * 60 + ss) := by
  unfold parseTimestampL
  rw [h]
  rfl

theorem parse_three_aux (s : List Char) (hh mm ss : Int)
    (h : (jsSplit ':' s).map jsParseInt = [some hh, some mm, some ss]) :
    parseTimestampL s = some (hh * 3600 + mm * 60 + ss) := by
  unfold parseTimestampL
  rw [h]
  rfl

theorem parse_malformed_aux (l : List Char)
    (h : ¬ ((jsSplit ':' l).length = 2 ∨ (jsSplit ':' l).length = 3) ∨
      ∃ p ∈ jsSplit ':' l, jsParseInt p = none) :
    parseTimestampL l = none := by
  unfold parseTimestampL
  rcases h with hlen | ⟨p, hp, hnone⟩
  · by_cases hany : ((jsSplit ':' l).map jsParseInt).any (fun p => p.isNone) = true
    · simp [hany]
    · rcases hsplit : jsSplit ':' l with _ | ⟨a, _ | ⟨b, _ | ⟨c, _ | ⟨d, t⟩⟩⟩⟩ <;>
        rw [hsplit] at hlen hany <;> simp_all
  · have hmem : ((jsSplit ':' l).map jsParseInt).any (fun p => p.isNone) = true := by
      rw [List.any_eq_true]
      exact ⟨jsParseInt p, List.mem_map_of_mem _ hp, by rw [hnone]; rfl⟩
    simp [hmem]

/-- Claim C4: `parseTimestamp` maps every string splitting on `":"` into
exactly two integer-parsing parts `[mm, ss]` to `mm*60 + ss`, and every
string splitting into exactly three integer-parsing parts `[hh, mm, ss]` to
`hh*3600 + mm*60 + ss`; in particular `parse("1:02:05") == 3725`. -/
theorem claim_C4 :
    (∀ (s : String) (mm ss : Int),
        (jsSplit ':' s.data).map jsParseInt = [some mm, some ss] →
        parseTimestamp s = some (mm * 60 + ss)) ∧
    (∀ (s : String) (hh mm ss : Int),
        (jsSplit ':' s.data).map jsParseInt = [some hh, some mm, some ss] →
        parseTimestamp s = some (hh * 3600 + mm * 60 + ss)) ∧
    parseTimestamp "1:02:05" = some 3725 :=
  ⟨fun s mm ss h => parse_two_aux s.data mm ss h,
   fun s hh mm ss h => parse_three_aux s.data hh mm ss h,
   rfl⟩

theorem claim_C4_witness :
    (jsSplit ':' "3:07".data).map jsParseInt = [some 3, some 7] ∧
    parseTimestamp "3:07" = some 187 :=
  ⟨rfl, claim_C4.1 "3:07" 3 7 rfl⟩

/-- Claim C6: `parseTimestamp` (both the `SectionList.tsx` version, with its
undefined/empty guard, and the `ChatBox.tsx` version) is total and returns
the sentinel `NaN` (modelled as `none`) on every malformed input: an input
that does not split into exactly two or three colon-separated parts, or in
which some part does not parse as an integer. -/
theorem claim_C6 :
    (∀ s : String,
        (¬ ((jsSplit ':' s.data).length = 2 ∨ (jsSplit ':' s.data).length = 3) ∨
          ∃ p ∈ jsSplit ':' s.data, jsParseInt p = none) →
        parseTimestamp s = none) ∧
    parseTimestampSL none = none ∧
    (∀ s : String,
        (¬ ((jsSplit ':' s.data).length = 2 ∨ (jsSplit ':' s.data).length = 3) ∨
          ∃ p ∈ jsSplit ':' s.data, jsParseInt p = none) →
        parseTimestampSL (some s) = none) := by
  refine ⟨fun s h => parse_malformed_aux s.data h, rfl, fun s h => ?_⟩
  by_cases hs : s = ""
  · simp [parseTimestampSL, hs]
  · simp only [parseTimestampSL, if_neg hs]
    exact parse_malformed_aux s.data h

theorem claim_C6_witness :
    (¬ ((jsSplit ':' "abc".data).length = 2 ∨ (jsSplit ':' "abc".data).length = 3) ∨
      ∃ p ∈ jsSplit ':' "abc".data, jsParseInt p = none) ∧
    parseTimestamp "abc" = none :=
  ⟨by decide, claim_C6.1 "abc" (by decide)⟩

/-- Claim C3: round-trip.  For every valid timestamp string (exactly two or
three colon-separated components, each parsing as a non-negative integer),
`formatTimestamp (parseTimestamp x)` equals the normalized rendering of `x`:
the canonical `"H:MM:SS"` or `"M:SS"` string denoting the same total number
of seconds. -/
theorem claim_C3 (s : String) (r : String) (h : normalizedRendering s = some r) :
    formatTimestamp (parseTimestamp s) = r := by
  unfold normalizedRendering at h
  rcases hm : (jsSplit ':' s.data).map jsParseInt with
    _ | ⟨o1, _ | ⟨o2, _ | ⟨o3, _ | ⟨o4, t⟩⟩⟩⟩ <;> rw [hm] at h
  · exact absurd h (by simp)
  · exact absurd h (by cases o1 <;> simp)
  · cases o1 with
    | none => exact absurd h (by simp)
    | some a =>
      cases o2 with
      | none => exact absurd h (by simp)
      | some b =>
        simp only [] at h
        by_cases hab : 0 ≤ a ∧ 0 ≤ b
        · rw [if_pos hab, Option.some_inj] at h
          subst h
          have ht : (0 : Int) ≤ a * 60 + b :=
            add_nonneg (mul_nonneg hab.1 (by norm_num)) hab.2
          unfold parseTimestamp
          rw [parse_two_aux s.data a b hm]
          exact congrArg String.mk (formatTimestampL_nonneg _ ht)
        · rw [if_neg hab] at h
          exact absurd h (by simp)
  · cases o1 with
    | none => exact absurd h (by simp)
    | some a =>
      cases o2 with
      | none => exact absurd h (by simp)
      | some b =>
        cases o3 with
        | none => exact absurd h (by simp)
        | some c =>
          simp only [] at h
          by_cases habc : 0 ≤ a ∧ 0 ≤ b ∧ 0 ≤ c
          · rw [if_pos habc, Option.some_inj] at h
            subst h
            have ht : (0 : Int) ≤ a * 3600 + b * 60 + c :=
              add_nonneg
                (add_nonneg (mul_nonneg habc.1 (by norm_num))
                  (mul_nonneg habc.2.1 (by norm_num))) habc.2.2
            unfold parseTimestamp
            rw [parse_three_aux s.data a b c hm]
            exact congrArg String.mk (formatTimestampL_nonneg _ ht)
          · rw [if_neg habc] at h
            exact absurd h (by simp)
  · exact absurd h (by simp)

theorem claim_C3_witness :
    normalizedRendering "0:99" = some "1:39" ∧
    formatTimestamp (parseTimestamp "0:99") = "1:39" :=
  ⟨by decide, claim_C3 "0:99" "1:39" (by decide)⟩

/-- Claim C5: on every non-negative integer number of seconds both
formatters (`formatTime` in `SectionList.tsx` and `formatTimestamp` in
`ChatBox.tsx`) return the canonical rendering: `"H:MM:SS"` (hours unpadded,
minutes and seconds zero-padded to two digits) when the value is at least
3600 seconds, `"M:SS"` (minutes unpadded, seconds zero-padded) otherwise;
in particular `format(3725) == "1:02:05"`. -/
theorem claim_C5 :
    (∀ n : Int, 0 ≤ n →
        formatTime n = ⟨canonRender n.toNat⟩ ∧
        formatTimestamp (some n) = ⟨canonRender n.toNat⟩) ∧
    formatTime 3725 = "1:02:05" ∧ formatTimestamp (some 3725) = "1:02:05" :=
  ⟨fun n hn =>
    ⟨congrArg String.mk (formatTimeL_nonneg n hn),
     congrArg String.mk (formatTimestampL_nonneg n hn)⟩,
   rfl, rfl⟩

theorem claim_C5_witness :
    (0 : Int) ≤ 59 ∧ formatTime 59 = "0:59" ∧
    (0 : Int) ≤ 3725 ∧ formatTimestamp (some 3725) = "1:02:05" :=
  ⟨by decide, ((claim_C5.1 59 (by decide)).1).trans rfl,
   by decide, ((claim_C5.1 3725 (by decide)).2).trans rfl⟩

/-- Claim C10: the answer-side formatter `formatTimestamp` is total on all
numeric inputs (integers or `NaN` in this model) and returns the sentinel
`"0:00"` for every negative or `NaN` input. -/
theorem claim_C10 :
    formatTimestamp none = "0:00" ∧
    ∀ n : Int, n < 0 → formatTimestamp (some n) = "0:00" := by
  refine ⟨rfl, fun n hn => ?_⟩
  have hval : formatTimestampL (some n) = "0:00".data := by
    show (if n < 0 then "0:00".data else formatCore n.toNat) = "0:00".data
    rw [if_pos hn]
  exact congrArg String.mk hval

theorem claim_C10_witness : (-7 : Int) < 0 ∧ formatTimestamp (some (-7)) = "0:00" :=
  ⟨by decide, claim_C10.2 (-7) (by decide)⟩

/-! ## Global regex substitution as a left-to-right scan

JavaScript `text.replace(re, cb)` with a global regex scans the text left to
right: at each position it tries the regex; on a match it emits the callback
result and resumes after the match, otherwise it copies one character.  A
`Matcher γ` tries a concrete regex at the head of the text, returning the
callback payload and the unconsumed rest (every matcher below consumes at
least one character on success). -/

/-- Payload of one scan step: a literal character or a match. -/
inductive Piece (γ : Type) where
  | chr (c : Char)
  | mat (g : γ)
deriving DecidableEq

/-- A matcher: try the regex at the head of the text. -/
abbrev Matcher (γ : Type) := List Char → Option (γ × List Char)

/-- Fuel-driven scan loop; the fuel is initialized to the text length, which
suffices because matchers consume at least one character. -/
def scanGo {γ : Type} (m : Matcher γ) : Nat → List Char → List (Piece γ)
  | 0, _ => []
  | fuel + 1, s =>
    match s with
    | [] => []
    | c :: cs =>
      match m (c :: cs) with
      | some (g, rest) => .mat g :: scanGo m fuel rest
      | none => .chr c :: scanGo m fuel cs

/-- Scan a text with a matcher, decomposing it into literal characters and
matches. -/
def scanRx {γ : Type} (m : Matcher γ) (s : List Char) : List (Piece γ) :=
  scanGo m s.length s

/-- Whether the scan finds at least one match (i.e. some substring of the
text matches the regex). -/
def hasRxMatch {γ : Type} (m : Matcher γ) (s : List Char) : Bool :=
  (scanRx m s).any fun p => match p with | .mat _ => true | .chr _ => false

/-- Run a stateful replacement callback over a scan result (the callback
closure state threads left to right, as for a JavaScript closure). -/
def runRepl {γ σ : Type} (cb : γ → σ → List Char × σ) :
    List (Piece γ) → σ → List Char × σ
  | [], st => ([], st)
  | .chr c :: ps, st =>
    let r := runRepl cb ps st
    (c :: r.1, r.2)
  | .mat g :: ps, st =>
    let x := cb g st
    let r := runRepl cb ps x.2
    (x.1 ++ r.1, r.2)

/-- JavaScript `text.replace(re, cb)` with a stateful callback. -/
def jsReplaceSt {γ σ : Type} (m : Matcher γ) (cb : γ → σ → List Char × σ)
    (st : σ) (s : List Char) : List Char × σ :=
  runRepl cb (scanRx m s) st

/-- JavaScript `text.replace(re, cb)` with a pure callback. -/
def jsReplace {γ : Type} (m : Matcher γ) (cb : γ → List Char) (s : List Char) :
    List Char :=
  (scanRx m s).flatMap fun p => match p with | .chr c => [c] | .mat g => cb g

/-- Matcher for a single literal character (a regex like `/&/g`). -/
def mChar (t : Char) : Matcher Unit := fun s =>
  match s with
  | c :: cs => if c = t then some ((), cs) else none
  | [] => none

/-- Matcher for a literal token (a regex that is a plain string, as built by
`new RegExp(str, "g")` for `str` without metacharacters). -/
def mTok (t : List Char) : Matcher Unit := fun s =>
  if t ≠ [] ∧ t.isPrefixOf s then some ((), s.drop t.length) else none

/-- JavaScript `str.replace(/c/g, rep)` for a single character `c`. -/
def replaceChar (t : Char) (rep : List Char) (s : List Char) : List Char :=
  jsReplace (mChar t) (fun _ => rep) s

/-- JavaScript `str.replace(tok, rep)` for a literal token regex. -/
def replaceTok (t : List Char) (rep : List Char) (s : List Char) : List Char :=
  jsReplace (mTok t) (fun _ => rep) s

/-! ## HTML escaping (`escapeHtml` in `ChatBox.tsx`) -/

/-- `escapeHtml`: five chained global single-character replacements, `&`
first so that entity ampersands introduced later are not re-escaped. -/
def escapeHtmlL (s : List Char) : List Char :=
  replaceChar '\x27' "&#39;".data
    (replaceChar '"' "&quot;".data
      (replaceChar '>' "&gt;".data
        (replaceChar '<' "&lt;".data
          (replaceChar '&' "&amp;".data s))))

/-- String-level wrapper for `escapeHtmlL`. -/
def escapeHtml (s : String) : String := ⟨escapeHtmlL s.data⟩

/-- The per-character view of `escapeHtml`: what one input character
contributes to the output. -/
def escChar (c : Char) : List Char :=
  if c = '&' then "&amp;".data
  else if c = '<' then "&lt;".data
  else if c = '>' then "&gt;".data
  else if c = '"' then "&quot;".data
  else if c = '\x27' then "&#39;".data
  else [c]

theorem replaceChar_eq_flatMap (t : Char) (rep : List Char) (s : List Char) :
    replaceChar t rep s = s.flatMap fun c => if c = t then rep else [c] := by
  induction s with
  | nil => rfl
  | cons c cs ih =>
    have hstep : replaceChar t rep (c :: cs) =
        (if c = t then rep else [c]) ++ replaceChar t rep cs := by
      show (scanGo (mChar t) (cs.length + 1) (c :: cs)).flatMap _ = _
      by_cases hc : c = t <;>
        simp [scanGo, mChar, hc, replaceChar, jsReplace, scanRx]
    rw [hstep, List.flatMap_cons, ih]

theorem escapeHtmlL_eq_flatMap (s : List Char) :
    escapeHtmlL s = s.flatMap escChar := by
  unfold escapeHtmlL
  rw [replaceChar_eq_flatMap, replaceChar_eq_flatMap, replaceChar_eq_flatMap,
    replaceChar_eq_flatMap, replaceChar_eq_flatMap]
  induction s with
  | nil => rfl
  | cons c cs ih =>
    rw [List.flatMap_cons, List.flatMap_cons, List.flatMap_append,
      List.flatMap_append, List.flatMap_append, List.flatMap_append, ih]
    congr 1
    by_cases h1 : c = '&'
    · subst h1; rfl
    · rw [if_neg h1]
      by_cases h2 : c = '<'
      · subst h2; rfl
      · by_cases h3 : c = '>'
        · subst h3; rfl
        · by_cases h4 : c = '"'
          · subst h4; rfl
          · by_cases h5 : c = '\x27'
            · subst h5; rfl
            · simp [escChar, h1, h2, h3, h4, h5]

/-! ## Substring search (JavaScript `String.prototype.includes`) -/

/-- `s.includes(pat)`: some suffix of `s` starts with `pat`. -/
def hasSub (pat : List Char) : List Char → Bool
  | [] => pat.isEmpty
  | c :: cs => pat.isPrefixOf (c :: cs) || hasSub pat cs

/-! ## The regexes of `transformAnswer`, as matchers -/

/-- The newline placeholder `NEWLINE_PLACEHOLDER` of `transformAnswer`. -/
def NEWLINE_PH : List Char := "__NEWLINE__".data

/-- Matcher for `/\\"/g` (a literal backslash followed by a quote). -/
def mBQ : Matcher Unit := fun s =>
  match s with
  | '\\' :: '"' :: r => some ((), r)
  | _ => none

/-- Matcher for `/\\n/g` (a literal backslash followed by `n`). -/
def mLitN : Matcher Unit := fun s =>
  match s with
  | '\\' :: 'n' :: r => some ((), r)
  | _ => none

/-- Matcher for `/\r\n|\r|\n/g` (alternatives tried in order). -/
def mNL : Matcher Unit := fun s =>
  match s with
  | '\r' :: '\n' :: r => some ((), r)
  | '\r' :: r => some ((), r)
  | '\n' :: r => some ((), r)
  | _ => none

/-- Characters matched by the regex `.` (anything but a line terminator). -/
def dotOk (c : Char) : Bool :=
  c ≠ '\n' && c ≠ '\r' && c ≠ '\u2028' && c ≠ '\u2029'

/-- Lazy search for the closing delimiter of `(.*?)\1`: the shortest run of
`.`-matchable characters followed by `delim`; returns the run and the rest
after the delimiter. -/
def findLazyClose (delim : List Char) : List Char → Option (List Char × List Char)
  | [] => none
  | c :: cs =>
    if delim.isPrefixOf (c :: cs) then some ([], (c :: cs).drop delim.length)
    else if dotOk c then
      (findLazyClose delim cs).map fun p => (c :: p.1, p.2)
    else none

/-- Matcher for the bold regex `/(\*\*|\*)(.*?)\1/g`: try the `**` delimiter
with a lazy content search; if no `**` close exists, backtrack to the `*`
delimiter.  The payload is the content group. -/
def mBold : Matcher (List Char) := fun s =>
  match s with
  | '*' :: '*' :: rest =>
    (match findLazyClose ['*', '*'] rest with
     | some p => some p
     | none => findLazyClose ['*'] ('*' :: rest))
  | '*' :: rest => findLazyClose ['*'] rest
  | _ => none

/-! ### A small backtracking combinator layer for the YouTube-link regex

Each parser returns, in the regex engine's backtracking priority order, the
possible `(captured groups, rest)` outcomes; the overall first full parse is
the regex match, exactly as a backtracking regex engine would find it. -/

/-- Parser: all `(groups, rest)` outcomes in priority order. -/
abbrev RxParse := List Char → List (List (List Char) × List Char)

/-- Literal string. -/
def pLit (l : List Char) : RxParse := fun s =>
  if l.isPrefixOf s then [([], s.drop l.length)] else []

/-- Sequencing (concatenates captured groups). -/
def pSeq (p q : RxParse) : RxParse := fun s =>
  (p s).flatMap fun g1 => (q g1.2).map fun g2 => (g1.1 ++ g2.1, g2.2)

/-- Empty parser. -/
def pEps : RxParse := fun s => [([], s)]

/-- Greedy option `(?:...)?`: with the group first, then without. -/
def pOpt (p : RxParse) : RxParse := fun s => p s ++ pEps s

/-- Rests of the input after consuming 0, 1, 2, ... characters satisfying
`pr`, in that (lazy) order. -/
def lazyRests (pr : Char → Bool) : List Char → List (List Char)
  | [] => [[]]
  | c :: cs => (c :: cs) :: (if pr c then lazyRests pr cs else [])

/-- Lazy star `[pr]*?`. -/
def pLazyStar (pr : Char → Bool) : RxParse := fun s =>
  (lazyRests pr s).map fun r => ([], r)

/-- Greedy star `[pr]*`. -/
def pGreedyStar (pr : Char → Bool) : RxParse := fun s =>
  (lazyRests pr s).reverse.map fun r => ([], r)

/-- Greedy plus with capture `([pr]+)`. -/
def pPlusCap (pr : Char → Bool) : RxParse := fun s =>
  (lazyRests pr s).reverse.filterMap fun r =>
    let k := s.length - r.length
    if k = 0 then none else some ([s.take k], r)

/-- The YouTube-link regex
`/<a(?: [^>]*?)?href="(?:https?:\/\/)?(?:www\.)?(?:youtube\.com\/watch\?[^"]*?&t=(\d+)s?[^"]*)"[^>]*>([^<]+)<\/a>/g`
as a combinator parse (group 1 = seconds digits, group 2 = link text). -/
def ytP : RxParse :=
  pSeq (pLit "<a".data)
  (pSeq (pOpt (pSeq (pLit " ".data) (pLazyStar (fun c => c ≠ '>'))))
  (pSeq (pLit "href=\"".data)
  (pSeq (pOpt (pSeq (pLit "http".data) (pSeq (pOpt (pLit "s".data)) (pLit "://".data))))
  (pSeq (pOpt (pLit "www.".data))
  (pSeq (pLit "youtube.com/watch?".data)
  (pSeq (pLazyStar (fun c => c ≠ '"'))
  (pSeq (pLit "&t=".data)
  (pSeq (pPlusCap Char.isDigit)
  (pSeq (pOpt (pLit "s".data))
  (pSeq (pGreedyStar (fun c => c ≠ '"'))
  (pSeq (pLit "\"".data)
  (pSeq (pGreedyStar (fun c => c ≠ '>'))
  (pSeq (pLit ">".data)
  (pSeq (pPlusCap (fun c => c ≠ '<'))
        (pLit "</a>".data)))))))))))))))

/-- Matcher for the YouTube-link regex; the payload is group 1 (the seconds
digits). -/
def mYt : Matcher (List Char) := fun s =>
  match ytP s with
  | [] => none
  | (gs, rest) :: _ => some (gs.headD [], rest)

/-- Optional `(?::\d{2})?` tail of a timestamp: greedily extend a matched
timestamp with a colon and two digits when present. -/
def tsTail (acc : List Char) (rest : List Char) : List Char × List Char :=
  match rest with
  | ':' :: e :: f :: r2 =>
    if e.isDigit && f.isDigit then (acc ++ [':', e, f], r2) else (acc, rest)
  | _ => (acc, rest)

/-- One-leading-digit form `\d:\d{2}(?::\d{2})?` (the backtracked branch of
`\d{1,2}`). -/
def matchTsShort : Matcher (List Char) := fun s =>
  match s with
  | a :: ':' :: c :: d :: rest =>
    if a.isDigit && c.isDigit && d.isDigit then some (tsTail [a, ':', c, d] rest)
    else none
  | _ => none

/-- Matcher for the timestamp group `(\d{1,2}:\d{2}(?::\d{2})?)`: the greedy
two-digit branch of `\d{1,2}` first, then the one-digit branch.  This is the
single-timestamp regex of step 7; the payload is the matched text. -/
def matchTs : Matcher (List Char) := fun s =>
  match s with
  | a :: b :: ':' :: c :: d :: rest =>
    if a.isDigit && b.isDigit && c.isDigit && d.isDigit then
      some (tsTail [a, b, ':', c, d] rest)
    else matchTsShort s
  | _ => matchTsShort s

/-- Matcher for the range regex
`/(\d{1,2}:\d{2}(?::\d{2})?)(?:-{2}|-|\u2013)(\d{1,2}:\d{2}(?::\d{2})?)/g`:
a timestamp, a separator (`--` tried before `-` before the en dash), and a
second timestamp.  The payload is the pair of timestamp groups. -/
def mRange : Matcher (List Char × List Char) := fun s =>
  (matchTs s).bind fun p1 =>
    let cands : List (List Char) :=
      match p1.2 with
      | '-' :: '-' :: r2 => [r2, '-' :: r2]
      | '-' :: r2 => [r2]
      | '\u2013' :: r2 => [r2]
      | _ => []
    cands.findSome? fun r2 =>
      (matchTs r2).map fun p2 => ((p1.1, p2.1), p2.2)

/-! ## The `transformAnswer` pipeline (`ChatBox.tsx`) -/

/-- The placeholder key `__PLACEHOLDER_${idx}__`. -/
def keyOfIdx (i : Nat) : List Char :=
  "__PLACEHOLDER_".data ++ natToChars i ++ "__".data

/-- The bold placeholder key `__BOLD_${boldIdx}__`. -/
def boldKeyOfIdx (i : Nat) : List Char :=
  "__BOLD_".data ++ natToChars i ++ "__".data

/-- Replacement state: the running index and the placeholder map in
insertion order (JavaScript object keys of this shape enumerate in insertion
order). -/
abbrev PhState := Nat × List (List Char × List Char)

/-- The clickable-anchor markup
`<a href="?start=${secs}" class="text-blue-600 underline">${disp}</a>`. -/
def anchorHtml (secs disp : List Char) : List Char :=
  "<a href=\"?start=".data ++ secs ++ "\" class=\"text-blue-600 underline\">".data ++
    disp ++ "</a>".data

/-- Step 4 callback: escape the bold content, record
`<strong>…</strong>` under a fresh `__BOLD_i__` key. -/
def boldCb (content : List Char) (st : PhState) : List Char × PhState :=
  let escapedContent := escapeHtmlL content
  let key := boldKeyOfIdx st.1
  (key, (st.1 + 1,
    st.2 ++ [(key, "<strong>".data ++ escapedContent ++ "</strong>".data)]))

/-- Step 5 callback: parse the captured seconds digits; `""` on `NaN`
(unreachable for digit groups), otherwise record an anchor under a fresh
`__PLACEHOLDER_i__` key. -/
def ytCb (secsGroup : List Char) (st : PhState) : List Char × PhState :=
  match jsParseInt secsGroup with
  | none => ([], st)
  | some totalSecs =>
    let display := formatTimestampL (some totalSecs)
    let key := keyOfIdx st.1
    (key, (st.1 + 1, st.2 ++ [(key, anchorHtml (intToChars totalSecs) display)]))

/-- Step 6 callback: parse both ends of the range; the recorded markup is
`(<a …>start</a>–end)`, the end being escaped text when it fails to parse. -/
def rangeCb (g : List Char × List Char) (st : PhState) : List Char × PhState :=
  let startSecs := parseTimestampL g.1
  let endSecs := parseTimestampL g.2
  let dispStart := formatTimestampL startSecs
  let dispEnd :=
    match endSecs with
    | none => escapeHtmlL g.2
    | some v => formatTimestampL (some v)
  let key := keyOfIdx st.1
  (key, (st.1 + 1,
    st.2 ++ [(key, '(' :: anchorHtml (numToChars startSecs) dispStart ++
      '–' :: dispEnd ++ [')'])]))

/-- Step 7 callback: skip matches that are part of a range (dead code: a
matched timestamp cannot contain a dash), escape unparseable matches (also
dead), otherwise record an anchor under a fresh key. -/
def singleCb (ts : List Char) (st : PhState) : List Char × PhState :=
  if hasSub "--".data ts || hasSub "–".data ts then (ts, st)
  else
    match parseTimestampL ts with
    | none => (escapeHtmlL ts, st)
    | some secs =>
      let disp := formatTimestampL (some secs)
      let key := keyOfIdx st.1
      (key, (st.1 + 1, st.2 ++ [(key, anchorHtml (intToChars secs) disp)]))

/-- `"“"` and `"”"`-aware quote stripping (step 2 of `transformAnswer`):
when the trimmed text both starts and ends with a straight or smart quote,
drop the first and last character. -/
def stripQuotes (t : List Char) : List Char :=
  if (t.head? = some '"' && t.getLast? = some '"') ||
      (t.head? = some '“' && t.getLast? = some '”') then
    (t.drop 1).dropLast
  else t

/-- Steps 1–3 of `transformAnswer`: unescape `\"`, trim, strip surrounding
quotes, and turn both literal `\n` sequences and real newlines into the
`__NEWLINE__` placeholder. -/
def preprocessL (raw : List Char) : List Char :=
  let text1 := jsReplace mBQ (fun _ => ['"']) raw
  let text2 := stripQuotes (jsTrim text1)
  let text3 := jsReplace mLitN (fun _ => NEWLINE_PH) text2
  jsReplace mNL (fun _ => NEWLINE_PH) text3

/-- Matcher for the combined placeholder-key alternation of step 8 (the keys
contain no regex metacharacters, so the JavaScript-side escaping is the
identity); alternatives are tried in list order. -/
def mKeys (keys : List (List Char)) : Matcher (List Char) := fun s =>
  (keys.find? fun k => k.isPrefixOf s).map fun k => (k, s.drop k.length)

/-- `@@key@@`. -/
def wrapAts (k : List Char) : List Char := '@' :: '@' :: k ++ ['@', '@']

/-- One restore iteration of step 8: replace every occurrence of the wrapped
key by its recorded markup. -/
def restoreStep (acc : List Char) (kv : List Char × List Char) : List Char :=
  replaceTok (wrapAts kv.1) kv.2 acc

/-- Step 8: when no placeholder was created, escape the whole text;
otherwise wrap each key occurrence in `@@…@@`, escape, then restore the
timestamp placeholders and the bold placeholders in insertion order. -/
def assembleEscaped (text : List Char)
    (placeholders boldPlaceholders : List (List Char × List Char)) : List Char :=
  let placeholderKeys := placeholders.map Prod.fst
  let boldKeys := boldPlaceholders.map Prod.fst
  if placeholderKeys.isEmpty && boldKeys.isEmpty then escapeHtmlL text
  else
    let allKeys := placeholderKeys ++ boldKeys
    let wrapped := jsReplace (mKeys allKeys) (fun k => wrapAts k) text
    let escaped := escapeHtmlL wrapped
    let escaped2 := placeholders.foldl restoreStep escaped
    boldPlaceholders.foldl restoreStep escaped2

/-- `transformAnswer` from `ChatBox.tsx`: preprocessing, the four annotation
passes (bold, YouTube links, ranges, single timestamps), the
wrap-escape-restore step, and finally `__NEWLINE__` → `<br/>`. -/
def transformAnswerL (raw : List Char) : List Char :=
  let text := preprocessL raw
  let boldRes := jsReplaceSt mBold boldCb (0, []) text
  let ytRes := jsReplaceSt mYt ytCb (0, []) boldRes.1
  let rangeRes := jsReplaceSt mRange rangeCb ytRes.2 ytRes.1
  let singleRes := jsReplaceSt matchTs singleCb rangeRes.2 rangeRes.1
  let escaped := assembleEscaped singleRes.1 singleRes.2.2 boldRes.2.2
  replaceTok NEWLINE_PH "<br/>".data escaped

/-- String-level wrapper for `transformAnswerL`. -/
def transformAnswer (raw : String) : String := ⟨transformAnswerL raw.data⟩

/-! ## Scans without matches -/

theorem scanGo_nomatch {γ : Type} (m : Matcher γ) :
    ∀ (fuel : Nat) (s : List Char), s.length ≤ fuel →
    ((scanGo m fuel s).any fun p =>
      match p with | .mat _ => true | .chr _ => false) = false →
    scanGo m fuel s = s.map Piece.chr := by
  intro fuel
  induction fuel with
  | zero =>
    intro s hf _
    rw [List.length_eq_zero.mp (Nat.le_zero.mp hf)]
    rfl
  | succ f ih =>
    intro s hf h
    cases s with
    | nil => rfl
    | cons c cs =>
      cases hm : m (c :: cs) with
      | some gr =>
        rw [show scanGo m (f + 1) (c :: cs) = .mat gr.1 :: scanGo m f gr.2 from by
          simp [scanGo, hm]] at h
        simp at h
      | none =>
        have hstep : scanGo m (f + 1) (c :: cs) = .chr c :: scanGo m f cs := by
          simp [scanGo, hm]
        rw [hstep] at h ⊢
        simp only [List.any_cons, Bool.or_eq_false_iff] at h
        rw [List.map_cons, ih cs (Nat.le_of_succ_le_succ hf) h.2]

theorem scanRx_nomatch {γ : Type} (m : Matcher γ) (s : List Char)
    (h : hasRxMatch m s = false) : scanRx m s = s.map Piece.chr :=
  scanGo_nomatch m s.length s le_rfl h

theorem runRepl_chrs {γ σ : Type} (cb : γ → σ → List Char × σ) (st : σ)
    (s : List Char) : runRepl cb (s.map Piece.chr) st = (s, st) := by
  induction s with
  | nil => rfl
  | cons c cs ih => simp [runRepl, ih]

theorem jsReplaceSt_nomatch {γ σ : Type} (m : Matcher γ)
    (cb : γ → σ → List Char × σ) (st : σ) (s : List Char)
    (h : hasRxMatch m s = false) : jsReplaceSt m cb st s = (s, st) := by
  unfold jsReplaceSt
  rw [scanRx_nomatch m s h, runRepl_chrs]

theorem flatMap_chr {γ : Type} (cb : γ → List Char) (s : List Char) :
    ((s.map Piece.chr).flatMap fun p =>
      match p with | Piece.chr c => [c] | Piece.mat g => cb g) = s := by
  induction s with
  | nil => rfl
  | cons c cs ih => simpa using ih

theorem jsReplace_nomatch {γ : Type} (m : Matcher γ) (cb : γ → List Char)
    (s : List Char) (h : hasRxMatch m s = false) : jsReplace m cb s = s := by
  unfold jsReplace
  rw [scanRx_nomatch m s h, flatMap_chr]

/-! ## Claim C1 -/

/-- Claim C1, as stated, is false: matching the four annotation patterns on
the RAW answer string is not equivalent to matching them after newline
normalization.  For `"*a\nb*"` no substring of the raw string matches any of
the timestamp, range, YouTube-link or bold patterns (the bold content `.`
cannot cross the newline) and the string contains no placeholder-shaped
token, yet `transformAnswer` does not return the escaped preprocessed text:
the newline placeholder makes the bold pattern match, producing
`"<strong>a<br/>b</strong>"` instead of `"*a<br/>b*"`. -/
theorem claim_C1_cex :
    hasRxMatch mBold "*a\nb*".data = false ∧
    hasRxMatch mYt "*a\nb*".data = false ∧
    hasRxMatch mRange "*a\nb*".data = false ∧
    hasRxMatch matchTs "*a\nb*".data = false ∧
    hasSub "__PLACEHOLDER_".data "*a\nb*".data = false ∧
    hasSub "__BOLD_".data "*a\nb*".data = false ∧
    hasSub "__NEWLINE__".data "*a\nb*".data = false ∧
    transformAnswer "*a\nb*" ≠
      ⟨replaceTok NEWLINE_PH "<br/>".data (escapeHtmlL (preprocessL "*a\nb*".data))⟩ := by
  refine ⟨rfl, rfl, rfl, rfl, rfl, rfl, rfl, ?_⟩
  decide

theorem assembleEscaped_nil (text : List Char) :
    assembleEscaped text [] [] = escapeHtmlL text := by
  simp [assembleEscaped]

/-- Claim C1 (amended): when the four annotation patterns are matched
against the PREPROCESSED text (quote-unescaped, trimmed, quote-stripped,
newline placeholders inserted) and find nothing, and the preprocessed text
contains no placeholder-shaped token, `transformAnswer` returns exactly the
HTML-escaped preprocessed text with the newline placeholders turned into
`<br/>`; in particular every remaining span of plain text is HTML-escaped. -/
theorem claim_C1_amended (raw : String)
    (hbold : hasRxMatch mBold (preprocessL raw.data) = false)
    (hyt : hasRxMatch mYt (preprocessL raw.data) = false)
    (hrange : hasRxMatch mRange (preprocessL raw.data) = false)
    (hsingle : hasRxMatch matchTs (preprocessL raw.data) = false)
    (_hph1 : hasSub "__PLACEHOLDER_".data (preprocessL raw.data) = false)
    (_hph2 : hasSub "__BOLD_".data (preprocessL raw.data) = false) :
    transformAnswer raw =
      ⟨replaceTok NEWLINE_PH "<br/>".data (escapeHtmlL (preprocessL raw.data))⟩ := by
  show String.mk (transformAnswerL raw.data) = _
  unfold transformAnswerL
  simp only [jsReplaceSt_nomatch mBold boldCb
      ((0 : Nat), ([] : List (List Char × List Char))) (preprocessL raw.data) hbold,
    jsReplaceSt_nomatch mYt ytCb
      ((0 : Nat), ([] : List (List Char × List Char))) (preprocessL raw.data) hyt,
    jsReplaceSt_nomatch mRange rangeCb
      ((0 : Nat), ([] : List (List Char × List Char))) (preprocessL raw.data) hrange,
    jsReplaceSt_nomatch matchTs singleCb
      ((0 : Nat), ([] : List (List Char × List Char))) (preprocessL raw.data) hsingle]
  rw [assembleEscaped_nil]

theorem claim_C1_witness :
    hasRxMatch mBold (preprocessL "hi <you>\nok".data) = false ∧
    hasRxMatch mYt (preprocessL "hi <you>\nok".data) = false ∧
    hasRxMatch mRange (preprocessL "hi <you>\nok".data) = false ∧
    hasRxMatch matchTs (preprocessL "hi <you>\nok".data) = false ∧
    transformAnswer "hi <you>\nok" = "hi &lt;you&gt;<br/>ok" :=
  ⟨rfl, rfl, rfl, rfl,
    (claim_C1_amended "hi <you>\nok" rfl rfl rfl rfl rfl rfl).trans (by decide)⟩

/-! ## HTTP calls and handlers (`client/lib/api.ts`, `ChatBox.tsx`,
`app/chat/page.tsx`)

A fetch result is modelled as `Option (Response α)`: `none` is a network
failure of `fetch` itself, `some r` an HTTP response with its `ok` flag
(status in the 2xx range) and a body already decoded at the call's result
type. -/

/-- An HTTP response as the client code observes it. -/
structure Response (α : Type) where
  ok : Bool
  body : α
deriving DecidableEq

/-- A chat turn (`QA` in `ChatBox.tsx`). -/
structure QA where
  question : String
  answer : String
deriving DecidableEq

/-- A visual search result (`VisualResult` in `ChatBox.tsx`). -/
structure VisualResult where
  timestamp : Int
  description : String
  score : Option Int
deriving DecidableEq

/-- A backend section as `SectionList.tsx` consumes it (`end` is a reserved
word, hence `endTs`). -/
structure SectionJ where
  start : Option String
  endTs : Option String
  summary : String
  error : Option String
deriving DecidableEq

/-- `postQuestion` (`client/lib/api.ts`): a non-2xx response throws
`Error("Failed to get answer")`; otherwise the body text is the answer. -/
def postQuestionM (r : Response String) : Except String String :=
  if r.ok = false then Except.error "Failed to get answer" else Except.ok r.body

/-- `postVisualSearch` (`client/lib/api.ts`): a non-2xx response throws
`Error("Failed to get visual search result")`. -/
def postVisualSearchM (r : Response VisualResult) : Except String VisualResult :=
  if r.ok = false then Except.error "Failed to get visual search result"
  else Except.ok r.body

/-- Observable outcome of one chat submission. -/
structure ChatSubmitOut where
  history : List QA
  input : String
  alert : Option String
deriving DecidableEq

/-- `handleChatSubmit` (`ChatBox.tsx`): blank (whitespace-only) input
returns early; a network failure or thrown response error is caught,
`alert`ed and leaves the state unchanged; success appends exactly one
`{question, answer}` pair (the answer transformed) and clears the input. -/
def handleChatSubmitM (input : String) (history : List QA)
    (resp : Option (Response String)) : ChatSubmitOut :=
  if (jsTrim input.data).isEmpty then
    { history := history, input := input, alert := none }
  else
    match resp with
    | none =>
      { history := history, input := input,
        alert := some "Error getting response. Check console." }
    | some r =>
      match postQuestionM r with
      | Except.error _ =>
        { history := history, input := input,
          alert := some "Error getting response. Check console." }
      | Except.ok ans =>
        { history := history ++ [⟨input, transformAnswer ans⟩], input := "",
          alert := none }

/-- Observable outcome of one visual search submission. -/
structure VisualOut where
  visualResult : Option VisualResult
  visualQuery : String
  alert : Option String
deriving DecidableEq

/-- `handleVisualSearch` (`ChatBox.tsx`): blank query returns early; the
previous result is cleared before the call, so a failure alerts with the
result cleared; success stores the result and clears the query. -/
def handleVisualSearchM (visualQuery : String) (prev : Option VisualResult)
    (resp : Option (Response VisualResult)) : VisualOut :=
  if (jsTrim visualQuery.data).isEmpty then
    { visualResult := prev, visualQuery := visualQuery, alert := none }
  else
    match resp with
    | none =>
      { visualResult := none, visualQuery := visualQuery,
        alert := some "Error getting visual search result. Check console." }
    | some r =>
      match postVisualSearchM r with
      | Except.error _ =>
        { visualResult := none, visualQuery := visualQuery,
          alert := some "Error getting visual search result. Check console." }
      | Except.ok v =>
        { visualResult := some v, visualQuery := "", alert := none }

/-- Observable outcome of the `fetchSections` effect. -/
structure SectionsOut where
  sections : List SectionJ
  alert : Option String
  consoleError : Bool
deriving DecidableEq

/-- `fetchSections` (`app/chat/page.tsx`): an empty URL returns early; a
non-2xx response or network failure logs to the console and sets the
sections to `[]` — no alert is ever raised on this path; success stores the
response array verbatim. -/
def fetchSectionsM (videoUrlParam : String) (prev : List SectionJ)
    (resp : Option (Response (List SectionJ))) : SectionsOut :=
  if videoUrlParam = "" then
    { sections := prev, alert := none, consoleError := false }
  else
    match resp with
    | none => { sections := [], alert := none, consoleError := true }
    | some r =>
      if r.ok = false then { sections := [], alert := none, consoleError := true }
      else { sections := r.body, alert := none, consoleError := false }

/-! ## Section list rendering (`SectionList.tsx`) -/

/-- JavaScript truthiness of an optional string field. -/
def truthyStr : Option String → Bool
  | none => false
  | some s => !s.isEmpty

/-- The summary as displayed: truncated to 60 characters plus `"..."` when
longer. -/
def displaySummary (summary : String) : String :=
  if 60 < summary.length then ⟨summary.data.take 60 ++ "...".data⟩ else summary

/-- What `SectionList` renders. -/
inductive RenderOut where
  | errorView
  | emptyView
  | listView (entries : List (Option Int × String))
deriving DecidableEq

/-- The condition `sections.length > 0 && sections[0].error` of the error
branch. -/
def headErrorTruthy (sections : List SectionJ) : Bool :=
  match sections with
  | [] => false
  | s0 :: _ => truthyStr s0.error

/-- The `SectionList` component body: the error card when `hasError` or the
first section carries a truthy `error`; otherwise sections are mapped to
`{startSeconds, summary}` and filtered to those whose `start` parses; an
empty remainder renders the empty state, else one list entry per surviving
section, in order, with the summary truncated. -/
def renderSectionList (sections : List SectionJ) (hasError : Bool) : RenderOut :=
  if hasError || headErrorTruthy sections then
    RenderOut.errorView
  else
    let validSections := (sections.map fun sec =>
      (parseTimestampSL sec.start, sec.summary)).filter fun p => !p.1.isNone
    if validSections.length = 0 then RenderOut.emptyView
    else RenderOut.listView (validSections.map fun p => (p.1, displaySummary p.2))

/-! ## Claim C7 -/

/-- Claim C7, as stated, is false for the `/sections` call: a non-2xx
response to `fetchSections` is logged to the console and replaced by an
empty section list, and no browser alert is raised. -/
theorem claim_C7_cex :
    (fetchSectionsM "https://youtu.be/x" [] (some ⟨false, []⟩)).alert = none ∧
    (fetchSectionsM "https://youtu.be/x" [] (some ⟨false, []⟩)).sections = [] ∧
    (fetchSectionsM "https://youtu.be/x" [] (some ⟨false, []⟩)).consoleError = true :=
  ⟨rfl, rfl, rfl⟩

/-- Claim C7 (amended): for `/question` and `/visual-search`, every non-2xx
response causes a generic error to be thrown, caught at the call site and
surfaced via a browser alert (leaving the chat history and visual result
unchanged / cleared); the `/sections` call instead logs to the console and
falls back to an empty section list, with no alert. -/
theorem claim_C7_amended :
    (∀ r : Response String, r.ok = false →
      postQuestionM r = Except.error "Failed to get answer") ∧
    (∀ (input : String) (history : List QA) (r : Response String),
      (jsTrim input.data).isEmpty = false → r.ok = false →
      (handleChatSubmitM input history (some r)).alert =
        some "Error getting response. Check console." ∧
      (handleChatSubmitM input history (some r)).history = history) ∧
    (∀ r : Response VisualResult, r.ok = false →
      postVisualSearchM r = Except.error "Failed to get visual search result") ∧
    (∀ (q : String) (prev : Option VisualResult) (r : Response VisualResult),
      (jsTrim q.data).isEmpty = false → r.ok = false →
      (handleVisualSearchM q prev (some r)).alert =
        some "Error getting visual search result. Check console.") ∧
    (∀ (url : String) (prev : List SectionJ) (r : Response (List SectionJ)),
      url ≠ "" → r.ok = false →
      (fetchSectionsM url prev (some r)).alert = none ∧
      (fetchSectionsM url prev (some r)).sections = []) := by
  refine ⟨fun r hr => ?_, fun input history r hin hr => ?_,
    fun r hr => ?_, fun q prev r hq hr => ?_, fun url prev r hurl hr => ?_⟩
  · simp [postQuestionM, hr]
  · constructor <;> simp [handleChatSubmitM, hin, postQuestionM, hr]
  · simp [postVisualSearchM, hr]
  · simp [handleVisualSearchM, hq, postVisualSearchM, hr]
  · constructor <;> simp [fetchSectionsM, hurl, hr]

theorem claim_C7_witness :
    ((jsTrim "hello".data).isEmpty = false ∧ (false = false) ∧
      (handleChatSubmitM "hello" [] (some ⟨false, "x"⟩)).alert =
        some "Error getting response. Check console.") ∧
    ("u" ≠ "" ∧ (fetchSectionsM "u" [] (some ⟨false, []⟩)).alert = none) :=
  ⟨⟨rfl, rfl, (claim_C7_amended.2.1 "hello" [] ⟨false, "x"⟩ rfl rfl).1⟩,
   ⟨by decide, (claim_C7_amended.2.2.2.2 "u" [] ⟨false, []⟩ (by decide) rfl).1⟩⟩

/-! ## Claim C9 -/

/-- Claim C9: the chat history is an append-only log.  Every chat
submission either leaves the history unchanged (blank input, network
failure, or thrown response error) or appends exactly one question/answer
pair at the end; no path removes, reorders or mutates existing entries. -/
theorem claim_C9 :
    (∀ (input : String) (history : List QA) (resp : Option (Response String)),
      (jsTrim input.data).isEmpty = true →
      (handleChatSubmitM input history resp).history = history) ∧
    (∀ (input : String) (history : List QA) (r : Response String),
      r.ok = false →
      (handleChatSubmitM input history (some r)).history = history) ∧
    (∀ (input : String) (history : List QA) (resp : Option (Response String)),
      (handleChatSubmitM input history resp).history = history ∨
      ∃ qa, (handleChatSubmitM input history resp).history = history ++ [qa]) := by
  refine ⟨fun input history resp hin => ?_, fun input history r hr => ?_,
    fun input history resp => ?_⟩
  · simp [handleChatSubmitM, hin]
  · by_cases hin : (jsTrim input.data).isEmpty <;>
      simp [handleChatSubmitM, hin, postQuestionM, hr]
  · by_cases hin : (jsTrim input.data).isEmpty
    · left; simp [handleChatSubmitM, hin]
    · cases resp with
      | none => left; simp [handleChatSubmitM, hin]
      | some r =>
        by_cases hr : r.ok = false
        · left; simp [handleChatSubmitM, hin, postQuestionM, hr]
        · right
          refine ⟨⟨input, transformAnswer r.body⟩, ?_⟩
          simp [handleChatSubmitM, hin, postQuestionM, hr]

theorem claim_C9_witness :
    ((jsTrim "  ".data).isEmpty = true ∧
      (handleChatSubmitM "  " [] (some ⟨true, "hi"⟩)).history = []) ∧
    ((false = false) ∧
      (handleChatSubmitM "q" [⟨"a", "b"⟩] (some ⟨false, "x"⟩)).history = [⟨"a", "b"⟩]) :=
  ⟨⟨rfl, claim_C9.1 "  " [] (some ⟨true, "hi"⟩) rfl⟩,
   ⟨rfl, claim_C9.2.1 "q" [⟨"a", "b"⟩] ⟨false, "x"⟩ rfl⟩⟩

/-! ## Claim C8 -/

/-- Claim C8, as stated, is false in two ways: a section whose `start` does
not parse as a timestamp is filtered out entirely (here yielding the empty
state instead of one entry), and a summary longer than 60 characters is
rendered truncated with an ellipsis rather than verbatim. -/
theorem claim_C8_cex :
    renderSectionList [⟨some "abc", some "0:30", "hello", none⟩] false =
      RenderOut.emptyView ∧
    renderSectionList
        [⟨some "0:30", some "0:45", String.mk (List.replicate 61 'a'), none⟩] false =
      RenderOut.listView
        [(some 30, String.mk (List.replicate 60 'a' ++ "...".data))] ∧
    String.mk (List.replicate 60 'a' ++ "...".data) ≠
      String.mk (List.replicate 61 'a') := by
  refine ⟨rfl, by decide, by decide⟩

theorem render_valid_aux (sections : List SectionJ) :
    (((sections.map fun sec => (parseTimestampSL sec.start, sec.summary)).filter
        fun p => !p.1.isNone).map fun p => (p.1, displaySummary p.2)) =
      sections.filterMap fun sec =>
        (parseTimestampSL sec.start).map fun t =>
          ((some t : Option Int), displaySummary sec.summary) := by
  induction sections with
  | nil => rfl
  | cons sec rest ih =>
    cases hp : parseTimestampSL sec.start with
    | none => simpa [hp] using ih
    | some t => simpa [hp] using ih

theorem render_filter_aux (sections : List SectionJ) :
    ((sections.map fun sec => (parseTimestampSL sec.start, sec.summary)).filter
        fun p => !p.1.isNone).length =
      (sections.filterMap fun sec =>
        (parseTimestampSL sec.start).map fun t =>
          ((some t : Option Int), displaySummary sec.summary)).length := by
  rw [← render_valid_aux, List.length_map]

/-- Claim C8 (amended): when no section carries an error field, the
rendered list contains exactly one entry per section whose `start` parses
as a timestamp, in order, with the summary truncated to 60 characters plus
an ellipsis when longer (sections with unparseable `start` are dropped, and
an empty remainder renders the empty state). -/
theorem claim_C8_amended (sections : List SectionJ)
    (herr : ∀ sec ∈ sections, sec.error = none) :
    renderSectionList sections false =
      (let entries := sections.filterMap fun sec =>
        (parseTimestampSL sec.start).map fun t =>
          ((some t : Option Int), displaySummary sec.summary)
      if entries.isEmpty then RenderOut.emptyView else RenderOut.listView entries) := by
  have hhead : headErrorTruthy sections = false := by
    cases sections with
    | nil => rfl
    | cons s0 rest =>
      show truthyStr s0.error = false
      rw [herr s0 (List.mem_cons_self s0 rest)]
      rfl
  unfold renderSectionList
  rw [Bool.false_or, hhead]
  simp only [Bool.false_eq_true, if_false]
  by_cases hlen : ((sections.map fun sec => (parseTimestampSL sec.start, sec.summary)).filter
      fun p => !p.1.isNone).length = 0
  · rw [if_pos hlen]
    have : (sections.filterMap fun sec =>
        (parseTimestampSL sec.start).map fun t =>
          ((some t : Option Int), displaySummary sec.summary)).isEmpty = true := by
      rw [List.isEmpty_iff_length_eq_zero, ← render_filter_aux]
      exact hlen
    simp [this]
  · rw [if_neg hlen, render_valid_aux]
    have : (sections.filterMap fun sec =>
        (parseTimestampSL sec.start).map fun t =>
          ((some t : Option Int), displaySummary sec.summary)).isEmpty = false := by
      rw [Bool.eq_false_iff]
      intro hcontra
      rw [List.isEmpty_iff_length_eq_zero, ← render_filter_aux] at hcontra
      exact hlen hcontra
    simp [this]

theorem claim_C8_witness :
    (∀ sec ∈ [(⟨some "0:05", some "0:30", "intro", none⟩ : SectionJ),
        ⟨some "1:02:05", some "1:10:00", "main part", none⟩], sec.error = none) ∧
    renderSectionList
        [⟨some "0:05", some "0:30", "intro", none⟩,
         ⟨some "1:02:05", some "1:10:00", "main part", none⟩] false =
      RenderOut.listView [(some 5, "intro"), (some 3725, "main part")] := by
  constructor
  · decide
  · rw [claim_C8_amended _ (by decide)]
    decide

/-! ## Decimal rendering: digits and injectivity -/

theorem digChar_isDigit (k : Nat) (hk : k < 10) : (digChar k).isDigit = true := by
  interval_cases k <;> decide

theorem digitVal_digChar (k : Nat) (hk : k < 10) : digitVal (digChar k) = k := by
  interval_cases k <;> decide

theorem natToCharsGo_digits (fuel : Nat) :
    ∀ (n : Nat) (acc : List Char), (∀ c ∈ acc, c.isDigit = true) →
    ∀ c ∈ natToCharsGo fuel n acc, c.isDigit = true := by
  induction fuel with
  | zero => intro n acc hacc c hc; exact hacc c hc
  | succ f ih =>
    intro n acc hacc c hc
    by_cases hn : n = 0
    · rw [natToCharsGo, if_pos hn] at hc
      exact hacc c hc
    · rw [natToCharsGo, if_neg hn] at hc
      refine ih (n / 10) _ ?_ c hc
      intro c' hc'
      rcases List.mem_cons.mp hc' with h | h
      · rw [h]; exact digChar_isDigit _ (Nat.mod_lt _ (by norm_num))
      · exact hacc c' h

theorem natToChars_digits (n : Nat) : ∀ c ∈ natToChars n, c.isDigit = true := by
  unfold natToChars
  by_cases hn : n = 0
  · rw [if_pos hn]; intro c hc; simp at hc; rw [hc]; decide
  · rw [if_neg hn]
    exact natToCharsGo_digits (n + 1) n [] (by intro c hc; simp at hc)

theorem decValue_shift (ds : List Char) :
    ∀ acc : Nat, ds.foldl (fun a c => 10 * a + digitVal c) acc =
      acc * 10 ^ ds.length + ds.foldl (fun a c => 10 * a + digitVal c) 0 := by
  induction ds with
  | nil => intro acc; simp
  | cons c ds ih =>
    intro acc
    rw [List.foldl_cons, ih (10 * acc + digitVal c), List.foldl_cons,
      ih (10 * 0 + digitVal c), List.length_cons, pow_succ]
    ring

theorem decValue_cons (c : Char) (ds : List Char) :
    decValue (c :: ds) = digitVal c * 10 ^ ds.length + decValue ds := by
  unfold decValue
  rw [List.foldl_cons, decValue_shift ds (10 * 0 + digitVal c)]
  ring_nf

theorem natToCharsGo_decValue (fuel : Nat) :
    ∀ (n : Nat) (acc : List Char), n ≤ fuel →
    decValue (natToCharsGo fuel n acc) = n * 10 ^ acc.length + decValue acc := by
  induction fuel with
  | zero =>
    intro n acc hn
    rw [Nat.le_zero.mp hn]
    simp [natToCharsGo]
  | succ f ih =>
    intro n acc hn
    by_cases h0 : n = 0
    · rw [natToCharsGo, if_pos h0, h0]; simp
    · rw [natToCharsGo, if_neg h0]
      have hdiv : n / 10 ≤ f := by
        have h1 : n / 10 < n := Nat.div_lt_self (Nat.pos_of_ne_zero h0) (by norm_num)
        omega
      rw [ih (n / 10) _ hdiv, decValue_cons,
        digitVal_digChar _ (Nat.mod_lt _ (by norm_num))]
      simp only [List.length_cons, pow_succ]
      have h1 : n / 10 * (10 ^ acc.length * 10) + (n % 10 * 10 ^ acc.length + decValue acc) =
          (n / 10 * 10 + n % 10) * 10 ^ acc.length + decValue acc := by ring
      have h2 : n / 10 * 10 + n % 10 = n := by omega
      rw [h1, h2]

theorem decValue_natToChars (n : Nat) : decValue (natToChars n) = n := by
  unfold natToChars
  by_cases h0 : n = 0
  · rw [if_pos h0, h0]; decide
  · rw [if_neg h0, natToCharsGo_decValue (n + 1) n [] (Nat.le_succ n)]
    simp [decValue]

theorem natToChars_inj {a b : Nat} (h : natToChars a = natToChars b) : a = b := by
  have := decValue_natToChars a
  rw [h, decValue_natToChars b] at this
  exact this.symm

/-! ## Character classes -/

theorem isDigit_toNat {c : Char} (h : c.isDigit = true) :
    48 ≤ c.toNat ∧ c.toNat ≤ 57 := by
  simp only [Char.isDigit, decide_eq_true_eq, Bool.and_eq_true, ge_iff_le] at h
  obtain ⟨h1, h2⟩ := h
  exact ⟨h1, h2⟩

theorem digit_ne (c d : Char) (h : c.isDigit = true)
    (hd : d.toNat < 48 ∨ 57 < d.toNat) : c ≠ d := by
  intro hcd
  subst hcd
  obtain ⟨h1, h2⟩ := isDigit_toNat h
  omega

theorem digit_ne_underscore {c : Char} (h : c.isDigit = true) : c ≠ '_' :=
  digit_ne c '_' h (by right; decide)

/-! ## Boolean prefix lemmas -/

theorem pfxOf_append_cancel (a : List Char) :
    ∀ x y : List Char, (a ++ x).isPrefixOf (a ++ y) = x.isPrefixOf y := by
  induction a with
  | nil => intro x y; rfl
  | cons c a ih =>
    intro x y
    show (c == c && (a ++ x).isPrefixOf (a ++ y)) = _
    rw [beq_self_eq_true, Bool.true_and, ih]

theorem digits_block_not_pfx :
    ∀ (a b : List Char) (u v : List Char),
    (∀ c ∈ a, c.isDigit = true) → (∀ c ∈ b, c.isDigit = true) → a ≠ b →
    (a ++ '_' :: u).isPrefixOf (b ++ '_' :: v) = false := by
  intro a
  induction a with
  | nil =>
    intro b u v _ hb hne
    cases b with
    | nil => exact absurd rfl hne
    | cons y b2 =>
      show (('_' == y) && _) = false
      have : ('_' == y) = false := by
        rw [beq_eq_false_iff_ne]
        exact (digit_ne_underscore (hb y (List.mem_cons_self y b2))).symm
      rw [this, Bool.false_and]
  | cons x a2 ih =>
    intro b u v ha hb hne
    cases b with
    | nil =>
      show ((x == '_') && _) = false
      have : (x == '_') = false := by
        rw [beq_eq_false_iff_ne]
        exact digit_ne_underscore (ha x (List.mem_cons_self x a2))
      rw [this, Bool.false_and]
    | cons y b2 =>
      show ((x == y) && (a2 ++ '_' :: u).isPrefixOf (b2 ++ '_' :: v)) = false
      by_cases hxy : x = y
      · subst hxy
        have hne2 : a2 ≠ b2 := by
          intro hcontra; exact hne (by rw [hcontra])
        rw [ih b2 u v (fun c hc => ha c (List.mem_cons_of_mem x hc))
          (fun c hc => hb c (List.mem_cons_of_mem x hc)) hne2, Bool.and_false]
      · rw [show (x == y) = false from beq_eq_false_iff_ne.mpr hxy, Bool.false_and]

/-! ## Placeholder key lemmas -/

theorem key_ne_pfx (i j : Nat) (t : List Char) (hij : i ≠ j) :
    (keyOfIdx j).isPrefixOf (keyOfIdx i ++ t) = false := by
  have h1 : keyOfIdx j =
      "__PLACEHOLDER_".data ++ (natToChars j ++ '_' :: ['_']) := by
    simp [keyOfIdx, List.append_assoc]
  have h2 : keyOfIdx i ++ t =
      "__PLACEHOLDER_".data ++ (natToChars i ++ '_' :: ('_' :: t)) := by
    simp [keyOfIdx, List.append_assoc]
  rw [h1, h2, pfxOf_append_cancel]
  exact digits_block_not_pfx _ _ _ _ (natToChars_digits j) (natToChars_digits i)
    (fun hcontra => hij (natToChars_inj hcontra).symm)

theorem wrap_ne_pfx (i j : Nat) (t : List Char) (hij : i ≠ j) :
    (wrapAts (keyOfIdx j)).isPrefixOf (wrapAts (keyOfIdx i) ++ t) = false := by
  have h1 : wrapAts (keyOfIdx j) =
      ('@' :: '@' :: "__PLACEHOLDER_".data) ++
        (natToChars j ++ '_' :: ['_', '@', '@']) := by
    simp [wrapAts, keyOfIdx, List.append_assoc]
  have h2 : wrapAts (keyOfIdx i) ++ t =
      ('@' :: '@' :: "__PLACEHOLDER_".data) ++
        (natToChars i ++ '_' :: ('_' :: '@' :: '@' :: t)) := by
    simp [wrapAts, keyOfIdx, List.append_assoc]
  rw [h1, h2, pfxOf_append_cancel]
  exact digits_block_not_pfx _ _ _ _ (natToChars_digits j) (natToChars_digits i)
    (fun hcontra => hij (natToChars_inj hcontra).symm)

/-! ## Generic scan lemmas -/

/-- A matcher that consumes at least one character whenever it matches. -/
def Consuming {γ : Type} (m : Matcher γ) : Prop :=
  ∀ s g r, m s = some (g, r) → r.length < s.length

theorem scanGo_fuel_congr {γ : Type} (m : Matcher γ) (hm : Consuming m) :
    ∀ (f1 f2 : Nat) (s : List Char), s.length ≤ f1 → s.length ≤ f2 →
    scanGo m f1 s = scanGo m f2 s := by
  intro f1
  induction f1 with
  | zero =>
    intro f2 s h1 _
    rw [List.length_eq_zero.mp (Nat.le_zero.mp h1)]
    cases f2 <;> rfl
  | succ f ih =>
    intro f2 s h1 h2
    cases s with
    | nil => cases f2 <;> rfl
    | cons c cs =>
      cases f2 with
      | zero => simp at h2
      | succ f2' =>
        cases hmatch : m (c :: cs) with
        | some gr =>
          have hr : gr.2.length < (c :: cs).length := hm _ gr.1 gr.2 (by rw [hmatch])
          rw [show scanGo m (f + 1) (c :: cs) = .mat gr.1 :: scanGo m f gr.2 from by
              simp [scanGo, hmatch],
            show scanGo m (f2' + 1) (c :: cs) = .mat gr.1 :: scanGo m f2' gr.2 from by
              simp [scanGo, hmatch]]
          simp only [List.length_cons] at hr h1 h2
          rw [ih f2' gr.2 (by omega) (by omega)]
        | none =>
          rw [show scanGo m (f + 1) (c :: cs) = .chr c :: scanGo m f cs from by
              simp [scanGo, hmatch],
            show scanGo m (f2' + 1) (c :: cs) = .chr c :: scanGo m f2' cs from by
              simp [scanGo, hmatch]]
          simp only [List.length_cons] at h1 h2
          rw [ih f2' cs (by omega) (by omega)]

theorem scanRx_cons_none {γ : Type} (m : Matcher γ) (c : Char) (cs : List Char)
    (h : m (c :: cs) = none) : scanRx m (c :: cs) = .chr c :: scanRx m cs := by
  show scanGo m (cs.length + 1) (c :: cs) = _
  simp [scanGo, h]
  rfl

theorem scanRx_match {γ : Type} (m : Matcher γ) (hm : Consuming m)
    (s : List Char) (g : γ) (r : List Char) (h : m s = some (g, r)) :
    scanRx m s = .mat g :: scanRx m r := by
  cases s with
  | nil =>
    have := hm [] g r h
    simp at this
  | cons c cs =>
    show scanGo m (cs.length + 1) (c :: cs) = _
    rw [show scanGo m (cs.length + 1) (c :: cs) = .mat g :: scanGo m cs.length r from by
      simp [scanGo, h]]
    have hr := hm _ g r h
    simp only [List.length_cons] at hr
    rw [scanGo_fuel_congr m hm cs.length r.length r (by omega) le_rfl]
    rfl

theorem scanRx_append_chunk {γ : Type} (m : Matcher γ) :
    ∀ (A rest : List Char), (∀ k, k < A.length → m (List.drop k (A ++ rest)) = none) →
    scanRx m (A ++ rest) = A.map Piece.chr ++ scanRx m rest := by
  intro A
  induction A with
  | nil => intro rest _; simp
  | cons c A2 ih =>
    intro rest hA
    have h0 : m (c :: (A2 ++ rest)) = none := by
      have := hA 0 (by simp)
      simpa using this
    rw [show (c :: A2) ++ rest = c :: (A2 ++ rest) from rfl,
      scanRx_cons_none m c (A2 ++ rest) h0,
      ih rest (fun k hk => by simpa using hA (k + 1) (by simpa using hk))]
    rfl

/-- Matcher soundness for text-valued payloads: the payload plus the rest
reassemble the input. -/
def SoundTxt (m : Matcher (List Char)) : Prop :=
  ∀ s g r, m s = some (g, r) → s = g ++ r

/-- Reassembled text of a scan result. -/
def pieceContent : List (Piece (List Char)) → List Char
  | [] => []
  | .chr c :: ps => c :: pieceContent ps
  | .mat g :: ps => g ++ pieceContent ps

theorem scanGo_content (m : Matcher (List Char)) (hm : Consuming m)
    (hs : SoundTxt m) :
    ∀ (fuel : Nat) (s : List Char), s.length ≤ fuel →
    pieceContent (scanGo m fuel s) = s := by
  intro fuel
  induction fuel with
  | zero =>
    intro s h1
    rw [List.length_eq_zero.mp (Nat.le_zero.mp h1)]
    rfl
  | succ f ih =>
    intro s h1
    cases s with
    | nil => rfl
    | cons c cs =>
      cases hmatch : m (c :: cs) with
      | some gr =>
        rw [show scanGo m (f + 1) (c :: cs) = .mat gr.1 :: scanGo m f gr.2 from by
          simp [scanGo, hmatch]]
        have hr := hm _ gr.1 gr.2 (by rw [hmatch])
        simp only [List.length_cons] at hr h1
        show gr.1 ++ pieceContent (scanGo m f gr.2) = c :: cs
        rw [ih gr.2 (by omega)]
        exact (hs _ gr.1 gr.2 (by rw [hmatch])).symm
      | none =>
        rw [show scanGo m (f + 1) (c :: cs) = .chr c :: scanGo m f cs from by
          simp [scanGo, hmatch]]
        show c :: pieceContent (scanGo m f cs) = c :: cs
        simp only [List.length_cons] at h1
        rw [ih cs (by omega)]

theorem scanRx_content (m : Matcher (List Char)) (hm : Consuming m)
    (hs : SoundTxt m) (s : List Char) : pieceContent (scanRx m s) = s :=
  scanGo_content m hm hs s.length s le_rfl

theorem scanGo_mat_origin {γ : Type} (m : Matcher γ) :
    ∀ (fuel : Nat) (s : List Char) (g : γ), Piece.mat g ∈ scanGo m fuel s →
    ∃ s2 r, m s2 = some (g, r) := by
  intro fuel
  induction fuel with
  | zero => intro s g h; simp [scanGo] at h
  | succ f ih =>
    intro s g h
    cases s with
    | nil => simp [scanGo] at h
    | cons c cs =>
      cases hmatch : m (c :: cs) with
      | some gr =>
        rw [show scanGo m (f + 1) (c :: cs) = .mat gr.1 :: scanGo m f gr.2 from by
          simp [scanGo, hmatch]] at h
        rcases List.mem_cons.mp h with h1 | h1
        · exact ⟨c :: cs, gr.2, by rw [hmatch]; injection h1 with h2; rw [h2]⟩
        · exact ih gr.2 g h1
      | none =>
        rw [show scanGo m (f + 1) (c :: cs) = .chr c :: scanGo m f cs from by
          simp [scanGo, hmatch]] at h
        rcases List.mem_cons.mp h with h1 | h1
        · exact absurd h1 (by simp)
        · exact ih cs g h1

/-! ## Timestamp-shape facts -/

/-- The shapes the single-timestamp regex can match. -/
def TsShape (ts : List Char) : Prop :=
  (∃ a b c d : Char, a.isDigit = true ∧ b.isDigit = true ∧ c.isDigit = true ∧
    d.isDigit = true ∧
    (ts = [a, b, ':', c, d] ∨
      ∃ e f, e.isDigit = true ∧ f.isDigit = true ∧
        ts = [a, b, ':', c, d, ':', e, f])) ∨
  (∃ a c d : Char, a.isDigit = true ∧ c.isDigit = true ∧ d.isDigit = true ∧
    (ts = [a, ':', c, d] ∨
      ∃ e f, e.isDigit = true ∧ f.isDigit = true ∧ ts = [a, ':', c, d, ':', e, f]))

theorem tsTail_inv (acc rest m r : List Char) (h : tsTail acc rest = (m, r)) :
    (m = acc ∧ r = rest) ∨
    ∃ e f r2, rest = ':' :: e :: f :: r2 ∧ e.isDigit = true ∧ f.isDigit = true ∧
      m = acc ++ [':', e, f] ∧ r = r2 := by
  unfold tsTail at h
  split at h
  next e f r2 =>
    split at h
    next hdig =>
      injection h with h1 h2
      right
      exact ⟨e, f, r2, rfl, (Bool.and_eq_true _ _).mp hdig |>.1,
        (Bool.and_eq_true _ _).mp hdig |>.2, h1.symm, h2.symm⟩
    next =>
      injection h with h1 h2
      exact Or.inl ⟨h1.symm, h2.symm⟩
  next =>
    injection h with h1 h2
    exact Or.inl ⟨h1.symm, h2.symm⟩

theorem matchTsShort_inv (s ts r : List Char) (h : matchTsShort s = some (ts, r)) :
    s = ts ++ r ∧ r.length < s.length ∧
    (∃ a c d : Char, a.isDigit = true ∧ c.isDigit = true ∧ d.isDigit = true ∧
      (ts = [a, ':', c, d] ∨
        ∃ e f, e.isDigit = true ∧ f.isDigit = true ∧ ts = [a, ':', c, d, ':', e, f])) := by
  unfold matchTsShort at h
  split at h
  next a c d rest =>
    split at h
    next hdig =>
      have hacd := hdig
      rw [Bool.and_eq_true, Bool.and_eq_true] at hacd
      obtain ⟨⟨ha, hc⟩, hd⟩ := hacd
      injection h with h1
      rcases hp : tsTail [a, ':', c, d] rest with ⟨m, r2⟩
      rw [hp] at h1
      injection h1 with hm hr
      subst hm; subst hr
      rcases tsTail_inv _ _ _ _ hp with ⟨hm1, hr1⟩ | ⟨e, f, r3, hrest, he, hf, hm1, hr1⟩
      · subst hm1; subst hr1
        exact ⟨rfl, by simp; omega, a, c, d, ha, hc, hd, Or.inl rfl⟩
      · subst hm1; subst hr1; subst hrest
        refine ⟨by simp, by simp; omega, a, c, d, ha, hc, hd, Or.inr ⟨e, f, he, hf, by simp⟩⟩
    next => exact absurd h (by simp)
  next => exact absurd h (by simp)

theorem matchTs_inv (s ts r : List Char) (h : matchTs s = some (ts, r)) :
    s = ts ++ r ∧ r.length < s.length ∧ TsShape ts := by
  unfold matchTs at h
  split at h
  next a b c d rest =>
    split at h
    next hdig =>
      have habcd := hdig
      rw [Bool.and_eq_true, Bool.and_eq_true, Bool.and_eq_true] at habcd
      obtain ⟨⟨⟨ha, hb⟩, hc⟩, hd⟩ := habcd
      injection h with h1
      rcases hp : tsTail [a, b, ':', c, d] rest with ⟨m, r2⟩
      rw [hp] at h1
      injection h1 with hm hr
      subst hm; subst hr
      rcases tsTail_inv _ _ _ _ hp with ⟨hm1, hr1⟩ | ⟨e, f, r3, hrest, he, hf, hm1, hr1⟩
      · subst hm1; subst hr1
        exact ⟨rfl, by simp; omega, Or.inl ⟨a, b, c, d, ha, hb, hc, hd, Or.inl rfl⟩⟩
      · subst hm1; subst hr1; subst hrest
        exact ⟨by simp, by simp; omega,
          Or.inl ⟨a, b, c, d, ha, hb, hc, hd, Or.inr ⟨e, f, he, hf, by simp⟩⟩⟩
    next =>
      obtain ⟨h1, h2, h3⟩ := matchTsShort_inv _ _ _ h
      exact ⟨h1, h2, Or.inr h3⟩
  next =>
    obtain ⟨h1, h2, h3⟩ := matchTsShort_inv _ _ _ h
    exact ⟨h1, h2, Or.inr h3⟩

theorem matchTs_consuming : Consuming matchTs := by
  intro s g r h
  exact (matchTs_inv s g r h).2.1

theorem matchTs_sound : SoundTxt matchTs := by
  intro s g r h
  exact (matchTs_inv s g r h).1

/-! ## Digit strings through the JavaScript primitives -/

theorem char_le_toNat {a b : Char} (h : a ≤ b) : a.toNat ≤ b.toNat := h

theorem digit_ne_colon {c : Char} (h : c.isDigit = true) : c ≠ ':' :=
  digit_ne c ':' h (by right; decide)

theorem digit_ne_plus {c : Char} (h : c.isDigit = true) : c ≠ '+' :=
  digit_ne c '+' h (by left; decide)

theorem digit_ne_minus {c : Char} (h : c.isDigit = true) : c ≠ '-' :=
  digit_ne c '-' h (by left; decide)

theorem digit_ne_dash {c : Char} (h : c.isDigit = true) : c ≠ '-' :=
  digit_ne_minus h

theorem digit_ne_endash {c : Char} (h : c.isDigit = true) : c ≠ '–' :=
  digit_ne c '–' h (by right; decide)

theorem jsWs_digit {c : Char} (h : c.isDigit = true) : jsWs c = false := by
  obtain ⟨h1, h2⟩ := isDigit_toNat h
  have hne : ∀ d : Char, d.toNat < 48 ∨ 57 < d.toNat → (c == d) = false := by
    intro d hd
    exact beq_eq_false_iff_ne.mpr (digit_ne c d h hd)
  have hrange : decide ('\u2000' ≤ c) = false := by
    rw [decide_eq_false_iff_not]
    intro hle
    have := char_le_toNat hle
    rw [show ('\u2000').toNat = 8192 from rfl] at this
    omega
  simp only [jsWs, hrange, Bool.false_and]
  have hne2 : ∀ d : Char, d.toNat < 48 ∨ 57 < d.toNat → ¬ (c = d) := by
    intro d hd
    exact digit_ne c d h hd
  simp [hne2 ' ' (by left; decide), hne2 '\t' (by left; decide),
    hne2 '\n' (by left; decide), hne2 '\x0b' (by left; decide),
    hne2 '\x0c' (by left; decide), hne2 '\r' (by left; decide),
    hne2 '\u00A0' (by right; decide), hne2 '\u1680' (by right; decide),
    hne2 '\u2028' (by right; decide), hne2 '\u2029' (by right; decide),
    hne2 '\u202F' (by right; decide), hne2 '\u205F' (by right; decide),
    hne2 '\u3000' (by right; decide), hne2 '\uFEFF' (by right; decide)]

theorem jsSplit_nocolon (g : List Char) (hg : ∀ c ∈ g, c ≠ ':') :
    jsSplit ':' g = [g] := by
  induction g with
  | nil => rfl
  | cons c g ih =>
    rw [show jsSplit ':' (c :: g) = if c = ':' then [] :: jsSplit ':' g else
        (match jsSplit ':' g with | [] => [[c]] | h :: t => (c :: h) :: t) from rfl,
      if_neg (hg c (List.mem_cons_self c g)),
      ih (fun x hx => hg x (List.mem_cons_of_mem c hx))]

theorem jsSplit_append_colon (g1 : List Char) :
    ∀ rest : List Char, (∀ c ∈ g1, c ≠ ':') →
    jsSplit ':' (g1 ++ ':' :: rest) = g1 :: jsSplit ':' rest := by
  induction g1 with
  | nil =>
    intro rest _
    show jsSplit ':' (':' :: rest) = _
    rw [show jsSplit ':' (':' :: rest) = if ':' = ':' then [] :: jsSplit ':' rest else
        (match jsSplit ':' rest with | [] => [[':']] | h :: t => (':' :: h) :: t) from rfl,
      if_pos rfl]
  | cons c g1 ih =>
    intro rest hg
    show jsSplit ':' (c :: (g1 ++ ':' :: rest)) = _
    rw [show jsSplit ':' (c :: (g1 ++ ':' :: rest)) =
        if c = ':' then [] :: jsSplit ':' (g1 ++ ':' :: rest) else
        (match jsSplit ':' (g1 ++ ':' :: rest) with
          | [] => [[c]] | h :: t => (c :: h) :: t) from rfl,
      if_neg (hg c (List.mem_cons_self c g1)),
      ih rest (fun x hx => hg x (List.mem_cons_of_mem c hx))]

theorem takeWhile_all (p : Char → Bool) (l : List Char) (h : ∀ c ∈ l, p c = true) :
    l.takeWhile p = l := by
  induction l with
  | nil => rfl
  | cons c cs ih =>
    rw [List.takeWhile_cons, h c (List.mem_cons_self c cs), if_pos rfl,
      ih (fun x hx => h x (List.mem_cons_of_mem c hx))]

theorem jsParseInt_digits (g : List Char) (hne : g ≠ [])
    (hd : ∀ c ∈ g, c.isDigit = true) :
    jsParseInt g = some ((decValue g : Nat) : Int) := by
  cases g with
  | nil => exact absurd rfl hne
  | cons c g2 =>
    have hc := hd c (List.mem_cons_self c g2)
    have hdrop : (c :: g2).dropWhile jsWs = c :: g2 := by
      rw [List.dropWhile_cons, jsWs_digit hc]
      simp
    unfold jsParseInt
    simp only [hdrop]
    rw [if_neg (digit_ne_plus hc), if_neg (digit_ne_minus hc)]
    simp only [takeWhile_all Char.isDigit (c :: g2) hd]
    rw [if_neg (by simp)]
    rw [one_mul]

theorem hasSub_headne (p0 : Char) (pt ts : List Char) (h : ∀ c ∈ ts, c ≠ p0) :
    hasSub (p0 :: pt) ts = false := by
  induction ts with
  | nil => rfl
  | cons c cs ih =>
    show ((p0 :: pt).isPrefixOf (c :: cs) || hasSub (p0 :: pt) cs) = false
    rw [ih (fun x hx => h x (List.mem_cons_of_mem c hx)), Bool.or_false]
    show ((p0 == c) && pt.isPrefixOf cs) = false
    rw [show (p0 == c) = false from beq_eq_false_iff_ne.mpr
      (fun hx => (h c (List.mem_cons_self c cs)) hx.symm), Bool.false_and]

theorem digitsPair {p q : Char} (hp : p.isDigit = true) (hq : q.isDigit = true) :
    ∀ x ∈ [p, q], x.isDigit = true := by
  intro x hx
  rcases (show x = p ∨ x = q by simpa using hx) with rfl | rfl
  · exact hp
  · exact hq

theorem digitsOne {p : Char} (hp : p.isDigit = true) :
    ∀ x ∈ [p], x.isDigit = true := by
  intro x hx
  rw [show x = p by simpa using hx]
  exact hp

theorem nocolonPair {p q : Char} (hp : p.isDigit = true) (hq : q.isDigit = true) :
    ∀ x ∈ [p, q], x ≠ ':' := fun x hx => digit_ne_colon (digitsPair hp hq x hx)

theorem nocolonOne {p : Char} (hp : p.isDigit = true) : ∀ x ∈ [p], x ≠ ':' :=
  fun x hx => digit_ne_colon (digitsOne hp x hx)

theorem tsShape_parts (ts : List Char) (h : TsShape ts) :
    (∃ mm ss : Int, (jsSplit ':' ts).map jsParseInt = [some mm, some ss]) ∨
    (∃ hh mm ss : Int,
      (jsSplit ':' ts).map jsParseInt = [some hh, some mm, some ss]) := by
  rcases h with ⟨a, b, c, d, ha, hb, hc, hd, hts | ⟨e, f, he, hf, hts⟩⟩ |
    ⟨a, c, d, ha, hc, hd, hts | ⟨e, f, he, hf, hts⟩⟩
  · subst hts
    left
    rw [show ([a, b, ':', c, d] : List Char) = [a, b] ++ ':' :: [c, d] from rfl,
      jsSplit_append_colon [a, b] [c, d] (nocolonPair ha hb),
      jsSplit_nocolon [c, d] (nocolonPair hc hd),
      List.map_cons, List.map_cons, List.map_nil,
      jsParseInt_digits [a, b] (by simp) (digitsPair ha hb),
      jsParseInt_digits [c, d] (by simp) (digitsPair hc hd)]
    exact ⟨_, _, rfl⟩
  · subst hts
    right
    rw [show ([a, b, ':', c, d, ':', e, f] : List Char) =
        [a, b] ++ ':' :: ([c, d] ++ ':' :: [e, f]) from rfl,
      jsSplit_append_colon [a, b] _ (nocolonPair ha hb),
      jsSplit_append_colon [c, d] [e, f] (nocolonPair hc hd),
      jsSplit_nocolon [e, f] (nocolonPair he hf),
      List.map_cons, List.map_cons, List.map_cons, List.map_nil,
      jsParseInt_digits [a, b] (by simp) (digitsPair ha hb),
      jsParseInt_digits [c, d] (by simp) (digitsPair hc hd),
      jsParseInt_digits [e, f] (by simp) (digitsPair he hf)]
    exact ⟨_, _, _, rfl⟩
  · subst hts
    left
    rw [show ([a, ':', c, d] : List Char) = [a] ++ ':' :: [c, d] from rfl,
      jsSplit_append_colon [a] [c, d] (nocolonOne ha),
      jsSplit_nocolon [c, d] (nocolonPair hc hd),
      List.map_cons, List.map_cons, List.map_nil,
      jsParseInt_digits [a] (by simp) (digitsOne ha),
      jsParseInt_digits [c, d] (by simp) (digitsPair hc hd)]
    exact ⟨_, _, rfl⟩
  · subst hts
    right
    rw [show ([a, ':', c, d, ':', e, f] : List Char) =
        [a] ++ ':' :: ([c, d] ++ ':' :: [e, f]) from rfl,
      jsSplit_append_colon [a] _ (nocolonOne ha),
      jsSplit_append_colon [c, d] [e, f] (nocolonPair hc hd),
      jsSplit_nocolon [e, f] (nocolonPair he hf),
      List.map_cons, List.map_cons, List.map_cons, List.map_nil,
      jsParseInt_digits [a] (by simp) (digitsOne ha),
      jsParseInt_digits [c, d] (by simp) (digitsPair hc hd),
      jsParseInt_digits [e, f] (by simp) (digitsPair he hf)]
    exact ⟨_, _, _, rfl⟩

theorem tsShape_chars (ts : List Char) (h : TsShape ts) :
    ∀ x ∈ ts, x.isDigit = true ∨ x = ':' := by
  rcases h with ⟨a, b, c, d, ha, hb, hc, hd, hts | ⟨e, f, he, hf, hts⟩⟩ |
    ⟨a, c, d, ha, hc, hd, hts | ⟨e, f, he, hf, hts⟩⟩
  · subst hts
    intro x hx
    rcases (show x = a ∨ x = b ∨ x = ':' ∨ x = c ∨ x = d by simpa using hx) with
      rfl | rfl | rfl | rfl | rfl
    · exact Or.inl ha
    · exact Or.inl hb
    · exact Or.inr rfl
    · exact Or.inl hc
    · exact Or.inl hd
  · subst hts
    intro x hx
    rcases (show x = a ∨ x = b ∨ x = ':' ∨ x = c ∨ x = d ∨ x = ':' ∨ x = e ∨ x = f
        by simpa using hx) with rfl | rfl | rfl | rfl | rfl | rfl | rfl | rfl
    · exact Or.inl ha
    · exact Or.inl hb
    · exact Or.inr rfl
    · exact Or.inl hc
    · exact Or.inl hd
    · exact Or.inr rfl
    · exact Or.inl he
    · exact Or.inl hf
  · subst hts
    intro x hx
    rcases (show x = a ∨ x = ':' ∨ x = c ∨ x = d by simpa using hx) with
      rfl | rfl | rfl | rfl
    · exact Or.inl ha
    · exact Or.inr rfl
    · exact Or.inl hc
    · exact Or.inl hd
  · subst hts
    intro x hx
    rcases (show x = a ∨ x = ':' ∨ x = c ∨ x = d ∨ x = ':' ∨ x = e ∨ x = f
        by simpa using hx) with rfl | rfl | rfl | rfl | rfl | rfl | rfl
    · exact Or.inl ha
    · exact Or.inr rfl
    · exact Or.inl hc
    · exact Or.inl hd
    · exact Or.inr rfl
    · exact Or.inl he
    · exact Or.inl hf

theorem tsShape_nodash (ts : List Char) (h : TsShape ts) :
    hasSub "--".data ts = false ∧ hasSub "–".data ts = false := by
  have hchars := tsShape_chars ts h
  constructor
  · show hasSub ('-' :: ['-']) ts = false
    refine hasSub_headne '-' ['-'] ts (fun x hx => ?_)
    rcases hchars x hx with hd | rfl
    · exact digit_ne_dash hd
    · decide
  · show hasSub ('–' :: []) ts = false
    refine hasSub_headne '–' [] ts (fun x hx => ?_)
    rcases hchars x hx with hd | rfl
    · exact digit_ne_endash hd
    · decide

theorem tsShape_parse (ts : List Char) (h : TsShape ts) :
    ∃ v : Int, parseTimestampL ts = some v := by
  rcases tsShape_parts ts h with ⟨mm, ss, hmap⟩ | ⟨hh, mm, ss, hmap⟩
  · exact ⟨_, parse_two_aux ts mm ss hmap⟩
  · exact ⟨_, parse_three_aux ts hh mm ss hmap⟩

/-! ## Step 7 characterization -/

/-- The recorded markup for one matched single timestamp. -/
def singleVal (ts : List Char) : List Char :=
  match parseTimestampL ts with
  | some v => anchorHtml (intToChars v) (formatTimestampL (some v))
  | none => escapeHtmlL ts

/-- The text produced by step 7: literal characters kept, each match
replaced by its fresh placeholder key. -/
def keyedOut (i : Nat) : List (Piece (List Char)) → List Char
  | [] => []
  | .chr c :: ps => c :: keyedOut i ps
  | .mat _ :: ps => keyOfIdx i ++ keyedOut (i + 1) ps

/-- The placeholder map produced by step 7 (insertion order). -/
def anchorsOf (i : Nat) : List (Piece (List Char)) → List (List Char × List Char)
  | [] => []
  | .chr _ :: ps => anchorsOf i ps
  | .mat ts :: ps => (keyOfIdx i, singleVal ts) :: anchorsOf (i + 1) ps

/-- Number of matches in a scan result. -/
def matCount : List (Piece (List Char)) → Nat
  | [] => 0
  | .chr _ :: ps => matCount ps
  | .mat _ :: ps => matCount ps + 1

/-- Every matched payload has the timestamp shape. -/
def GoodTs (l : List (Piece (List Char))) : Prop :=
  ∀ ts, Piece.mat ts ∈ l → TsShape ts

theorem goodTs_tail {p : Piece (List Char)} {ps : List (Piece (List Char))}
    (h : GoodTs (p :: ps)) : GoodTs ps :=
  fun ts hts => h ts (List.mem_cons_of_mem p hts)

theorem singleCb_shape (ts : List Char) (hshape : TsShape ts) (i : Nat)
    (m : List (List Char × List Char)) :
    singleCb ts (i, m) =
      (keyOfIdx i, (i + 1, m ++ [(keyOfIdx i, singleVal ts)])) := by
  obtain ⟨hd1, hd2⟩ := tsShape_nodash ts hshape
  obtain ⟨v, hv⟩ := tsShape_parse ts hshape
  unfold singleCb
  rw [hd1, hd2]
  simp only [Bool.or_self, Bool.false_eq_true, if_false]
  rw [hv]
  unfold singleVal
  rw [hv]

theorem runRepl_single (l : List (Piece (List Char))) :
    ∀ (i : Nat) (m : List (List Char × List Char)), GoodTs l →
    runRepl singleCb l (i, m) =
      (keyedOut i l, (i + matCount l, m ++ anchorsOf i l)) := by
  induction l with
  | nil =>
    intro i m _
    simp [runRepl, keyedOut, anchorsOf, matCount]
  | cons p ps ih =>
    intro i m hgood
    cases p with
    | chr c =>
      rw [show runRepl singleCb (.chr c :: ps) (i, m) =
          (c :: (runRepl singleCb ps (i, m)).1, (runRepl singleCb ps (i, m)).2)
        from rfl, ih i m (goodTs_tail hgood)]
      simp [keyedOut, anchorsOf, matCount]
    | mat ts =>
      have hshape := hgood ts (List.mem_cons_self _ ps)
      rw [show runRepl singleCb (.mat ts :: ps) (i, m) =
          ((singleCb ts (i, m)).1 ++ (runRepl singleCb ps (singleCb ts (i, m)).2).1,
            (runRepl singleCb ps (singleCb ts (i, m)).2).2) from rfl,
        singleCb_shape ts hshape i m]
      simp only []
      rw [ih (i + 1) (m ++ [(keyOfIdx i, singleVal ts)]) (goodTs_tail hgood)]
      simp only [keyedOut, anchorsOf, matCount, List.append_assoc,
        List.singleton_append, Prod.mk.injEq]
      refine ⟨trivial, by omega, trivial⟩

/-! ## Step 8 characterization: definitions -/

/-- The keys of the placeholder map, in order. -/
def keyList (i : Nat) : List (Piece (List Char)) → List (List Char)
  | [] => []
  | .chr _ :: ps => keyList i ps
  | .mat _ :: ps => keyOfIdx i :: keyList (i + 1) ps

/-- The text after the wrap pass: keys wrapped in `@@…@@`. -/
def wrapOut (i : Nat) : List (Piece (List Char)) → List Char
  | [] => []
  | .chr c :: ps => c :: wrapOut i ps
  | .mat _ :: ps => wrapAts (keyOfIdx i) ++ wrapOut (i + 1) ps

/-- The escaped text during the restore loop: placeholders with index below
`cur` already restored to their markup, the rest still wrapped keys. -/
def midOut (cur : Nat) (i : Nat) : List (Piece (List Char)) → List Char
  | [] => []
  | .chr c :: ps => escChar c ++ midOut cur i ps
  | .mat ts :: ps =>
    (if i < cur then singleVal ts else wrapAts (keyOfIdx i)) ++ midOut cur (i + 1) ps

/-- The n-th matched payload of a scan result. -/
def nthMat : List (Piece (List Char)) → Nat → Option (List Char)
  | [], _ => none
  | .chr _ :: ps, k => nthMat ps k
  | .mat ts :: _, 0 => some ts
  | .mat _ :: ps, k + 1 => nthMat ps k

/-! ## Small structural lemmas -/

theorem pfx_cons (p0 c : Char) (pt cs : List Char) :
    (p0 :: pt).isPrefixOf (c :: cs) = ((p0 == c) && pt.isPrefixOf cs) := rfl

theorem pfx_nil_right (p0 : Char) (pt : List Char) :
    (p0 :: pt).isPrefixOf [] = false := rfl

theorem pfx_self_app (k t : List Char) : k.isPrefixOf (k ++ t) = true := by
  induction k with
  | nil => simp [List.isPrefixOf]
  | cons c k ih => rw [List.cons_append, pfx_cons, beq_self_eq_true, Bool.true_and, ih]

theorem hasSub_tail {p : List Char} {c : Char} {cs : List Char}
    (h : hasSub p (c :: cs) = false) : hasSub p cs = false := by
  have : hasSub p (c :: cs) = (p.isPrefixOf (c :: cs) || hasSub p cs) := rfl
  rw [this, Bool.or_eq_false_iff] at h
  exact h.2

theorem hasSub_drop_left {p : List Char} (a : List Char) {s : List Char}
    (h : hasSub p (a ++ s) = false) : hasSub p s = false := by
  induction a with
  | nil => exact h
  | cons c a ih => exact ih (hasSub_tail h)

theorem hasSub_of_start {t s : List Char}
    (h : s = '_' :: '_' :: 'P' :: t) : hasSub ['_', '_', 'P'] s = true := by
  subst h
  show (['_', '_', 'P'].isPrefixOf _ || _) = true
  rw [pfx_cons, pfx_cons, pfx_cons]
  simp

theorem keyOfIdx_cons (j : Nat) : keyOfIdx j =
    '_' :: '_' :: 'P' :: ("LACEHOLDER_".data ++ (natToChars j ++ "__".data)) := rfl

theorem keyOfIdx_ne_nil (j : Nat) : keyOfIdx j ≠ [] := by
  rw [keyOfIdx_cons]
  simp

theorem keyOfIdx_no_at (j : Nat) : ∀ c ∈ keyOfIdx j, c ≠ '@' := by
  intro c hc
  rw [keyOfIdx_cons] at hc
  rcases List.mem_cons.mp hc with rfl | hc
  · decide
  rcases List.mem_cons.mp hc with rfl | hc
  · decide
  rcases List.mem_cons.mp hc with rfl | hc
  · decide
  rcases List.mem_append.mp hc with hc | hc
  · exact (show ∀ x ∈ "LACEHOLDER_".data, x ≠ '@' by decide) c hc
  rcases List.mem_append.mp hc with hc | hc
  · exact digit_ne c '@' (natToChars_digits j c hc) (by right; decide)
  · exact (show ∀ x ∈ "__".data, x ≠ '@' by decide) c hc

theorem escChar_shape (c : Char) :
    escChar c = [c] ∨ ∃ e, escChar c = '&' :: e := by
  unfold escChar
  by_cases h1 : c = '&'
  · subst h1; right; exact ⟨_, rfl⟩
  rw [if_neg h1]
  by_cases h2 : c = '<'
  · subst h2; right; exact ⟨_, rfl⟩
  rw [if_neg h2]
  by_cases h3 : c = '>'
  · subst h3; right; exact ⟨_, rfl⟩
  rw [if_neg h3]
  by_cases h4 : c = '"'
  · subst h4; right; exact ⟨_, rfl⟩
  rw [if_neg h4]
  by_cases h5 : c = '\x27'
  · subst h5; right; exact ⟨_, rfl⟩
  rw [if_neg h5]
  left; rfl

theorem escChar_entity_no_at {c : Char} {e : List Char}
    (h : escChar c = '&' :: e) : ∀ x ∈ '&' :: e, x ≠ '@' := by
  have : escChar c = "&amp;".data ∨ escChar c = "&lt;".data ∨
      escChar c = "&gt;".data ∨ escChar c = "&quot;".data ∨
      escChar c = "&#39;".data ∨ escChar c = [c] := by
    unfold escChar
    by_cases h1 : c = '&'
    · simp [h1]
    rw [if_neg h1]
    by_cases h2 : c = '<'
    · simp [h2]
    rw [if_neg h2]
    by_cases h3 : c = '>'
    · simp [h3]
    rw [if_neg h3]
    by_cases h4 : c = '"'
    · simp [h4]
    rw [if_neg h4]
    by_cases h5 : c = '\x27'
    · simp [h5]
    rw [if_neg h5]
    simp
  rw [h] at this
  rcases this with h6 | h6 | h6 | h6 | h6 | h6
  · rw [h6]; decide
  · rw [h6]; decide
  · rw [h6]; decide
  · rw [h6]; decide
  · rw [h6]; decide
  · rcases List.cons.injEq '&' e c [] ▸ h6 with ⟨h7, h8⟩
    subst h8
    decide

/-! ## The wrap pass (first half of step 8) -/

theorem keyList_mem :
    ∀ (l : List (Piece (List Char))) (i : Nat) (k : List Char),
    k ∈ keyList i l → ∃ j, k = keyOfIdx j := by
  intro l
  induction l with
  | nil => intro i k h; simp [keyList] at h
  | cons p ps ih =>
    intro i k h
    cases p with
    | chr c => exact ih i k h
    | mat ts =>
      rcases List.mem_cons.mp h with h1 | h1
      · exact ⟨i, h1⟩
      · exact ih (i + 1) k h1

theorem anchors_fst (l : List (Piece (List Char))) :
    ∀ i, (anchorsOf i l).map Prod.fst = keyList i l := by
  induction l with
  | nil => intro i; rfl
  | cons p ps ih =>
    intro i
    cases p with
    | chr c => exact ih i
    | mat ts =>
      rw [show anchorsOf i (.mat ts :: ps) =
        (keyOfIdx i, singleVal ts) :: anchorsOf (i + 1) ps from rfl]
      rw [List.map_cons, ih (i + 1)]
      rfl

theorem keyList_find_at :
    ∀ (l : List (Piece (List Char))) (i j : Nat) (t : List Char),
    i ≤ j → j < i + matCount l →
    (keyList i l).find? (fun k => k.isPrefixOf (keyOfIdx j ++ t)) =
      some (keyOfIdx j) := by
  intro l
  induction l with
  | nil =>
    intro i j t h1 h2
    exfalso
    simp [matCount] at h2
    omega
  | cons p ps ih =>
    intro i j t h1 h2
    cases p with
    | chr c => exact ih i j t h1 (by simpa [matCount] using h2)
    | mat ts =>
      by_cases hij : i = j
      · subst hij
        rw [show keyList i (.mat ts :: ps) = keyOfIdx i :: keyList (i + 1) ps
          from rfl]
        apply List.find?_cons_of_pos
        exact pfx_self_app _ t
      · rw [show keyList i (.mat ts :: ps) = keyOfIdx i :: keyList (i + 1) ps
          from rfl]
        rw [List.find?_cons_of_neg]
        · refine ih (i + 1) j t (by omega) ?_
          have hc : matCount (.mat ts :: ps) = matCount ps + 1 := rfl
          omega
        · rw [key_ne_pfx j i t (fun h => hij h.symm)]
          simp

theorem jsReplace_cons_none {γ : Type} (m : Matcher γ) (cb : γ → List Char)
    (c : Char) (cs : List Char) (h : m (c :: cs) = none) :
    jsReplace m cb (c :: cs) = c :: jsReplace m cb cs := by
  unfold jsReplace
  rw [scanRx_cons_none m c cs h, List.flatMap_cons]
  rfl

theorem jsReplace_match {γ : Type} (m : Matcher γ) (hm : Consuming m)
    (cb : γ → List Char) (s : List Char) (g : γ) (r : List Char)
    (h : m s = some (g, r)) :
    jsReplace m cb s = cb g ++ jsReplace m cb r := by
  unfold jsReplace
  rw [scanRx_match m hm s g r h, List.flatMap_cons]

theorem mKeys_at_key (keys : List (List Char)) (j : Nat) (t : List Char)
    (hfind : keys.find? (fun k => k.isPrefixOf (keyOfIdx j ++ t)) =
      some (keyOfIdx j)) :
    mKeys keys (keyOfIdx j ++ t) = some (keyOfIdx j, t) := by
  unfold mKeys
  rw [hfind]
  simp [List.drop_left]

theorem mKeys_none (keys : List (List Char)) (s : List Char)
    (h : ∀ k ∈ keys, k.isPrefixOf s = false) : mKeys keys s = none := by
  unfold mKeys
  rw [List.find?_eq_none.mpr (fun k hk => by rw [h k hk]; simp)]
  rfl

theorem mKeys_consuming (keys : List (List Char))
    (hne : ∀ k ∈ keys, k ≠ []) : Consuming (mKeys keys) := by
  intro s g r h
  unfold mKeys at h
  cases hf : keys.find? (fun k => k.isPrefixOf s) with
  | none => rw [hf] at h; exact absurd h (by simp)
  | some k =>
    rw [hf] at h
    have hmem := List.mem_of_find?_eq_some hf
    have hpred := List.find?_some hf
    simp only [Option.map_some', Option.some.injEq, Prod.mk.injEq] at h
    obtain ⟨hg, hr⟩ := h
    have hk1 : 0 < k.length := List.length_pos.mpr (hne k hmem)
    cases s with
    | nil =>
      exfalso
      cases hk : k with
      | nil => exact hne k hmem hk
      | cons c k2 =>
        rw [hk] at hpred
        simp only [pfx_nil_right] at hpred
        exact Bool.false_ne_true hpred
    | cons c cs =>
      rw [← hr, List.length_drop]
      simp only [List.length_cons]
      omega

theorem keyedOut_pfx3 (ps : List (Piece (List Char))) (i : Nat) (X : List Char)
    (h3 : ∀ t, pieceContent ps ≠ 'P' :: t) :
    (('P' :: X).isPrefixOf (keyedOut i ps)) = false := by
  cases ps with
  | nil => rfl
  | cons p ps2 =>
    cases p with
    | chr c =>
      rw [show keyedOut i (.chr c :: ps2) = c :: keyedOut i ps2 from rfl, pfx_cons]
      by_cases hc : c = 'P'
      · subst hc
        exact absurd rfl (h3 (pieceContent ps2))
      · rw [show ('P' == c) = false from beq_eq_false_iff_ne.mpr (fun h => hc h.symm),
          Bool.false_and]
    | mat ts =>
      rw [show keyedOut i (.mat ts :: ps2) = keyOfIdx i ++ keyedOut (i + 1) ps2
        from rfl, keyOfIdx_cons, List.cons_append, pfx_cons]
      rw [show ('P' == '_') = false from rfl, Bool.false_and]

theorem keyedOut_pfx2 (ps : List (Piece (List Char))) (i : Nat) (X : List Char)
    (h2 : ∀ t, pieceContent ps ≠ '_' :: 'P' :: t) :
    (('_' :: 'P' :: X).isPrefixOf (keyedOut i ps)) = false := by
  cases ps with
  | nil => rfl
  | cons p ps2 =>
    cases p with
    | chr c =>
      rw [show keyedOut i (.chr c :: ps2) = c :: keyedOut i ps2 from rfl, pfx_cons]
      by_cases hc : c = '_'
      · subst hc
        rw [show ('_' == '_') = true from rfl, Bool.true_and]
        exact keyedOut_pfx3 ps2 i X
          (fun t ht => h2 t (by
            show '_' :: pieceContent ps2 = '_' :: 'P' :: t
            rw [ht]))
      · rw [show ('_' == c) = false from beq_eq_false_iff_ne.mpr (fun h => hc h.symm),
          Bool.false_and]
    | mat ts =>
      rw [show keyedOut i (.mat ts :: ps2) = keyOfIdx i ++ keyedOut (i + 1) ps2
        from rfl, keyOfIdx_cons, List.cons_append, pfx_cons, List.cons_append,
        pfx_cons]
      rw [show ('P' == '_') = false from rfl, Bool.false_and, Bool.and_false]

theorem keyedOut_chunk_nokey (c : Char) (ps : List (Piece (List Char)))
    (i m : Nat)
    (hsub : hasSub ['_', '_', 'P'] (pieceContent (Piece.chr c :: ps)) = false) :
    (keyOfIdx m).isPrefixOf (c :: keyedOut i ps) = false := by
  rw [keyOfIdx_cons, pfx_cons]
  by_cases hc : c = '_'
  · subst hc
    rw [show ('_' == '_') = true from rfl, Bool.true_and]
    refine keyedOut_pfx2 ps i _ (fun t ht => ?_)
    have : pieceContent (Piece.chr '_' :: ps) = '_' :: '_' :: 'P' :: t := by
      show '_' :: pieceContent ps = _
      rw [ht]
    rw [hasSub_of_start this] at hsub
    exact absurd hsub (by simp)
  · rw [show ('_' == c) = false from beq_eq_false_iff_ne.mpr (fun h => hc h.symm),
      Bool.false_and]

theorem wrap_out (n : Nat) (keys : List (List Char))
    (hfind : ∀ j t, j < n →
      keys.find? (fun k => k.isPrefixOf (keyOfIdx j ++ t)) = some (keyOfIdx j))
    (hmem : ∀ k ∈ keys, ∃ j, k = keyOfIdx j) :
    ∀ (l : List (Piece (List Char))) (i : Nat),
    hasSub ['_', '_', 'P'] (pieceContent l) = false →
    i + matCount l ≤ n →
    jsReplace (mKeys keys) (fun k => wrapAts k) (keyedOut i l) = wrapOut i l := by
  have hne : ∀ k ∈ keys, k ≠ [] := by
    intro k hk
    obtain ⟨j, rfl⟩ := hmem k hk
    exact keyOfIdx_ne_nil j
  intro l
  induction l with
  | nil => intro i _ _; rfl
  | cons p ps ih =>
    intro i hsub hn
    cases p with
    | chr c =>
      have hnone : mKeys keys (c :: keyedOut i ps) = none := by
        apply mKeys_none
        intro k hk
        obtain ⟨j, rfl⟩ := hmem k hk
        exact keyedOut_chunk_nokey c ps i j hsub
      rw [show keyedOut i (.chr c :: ps) = c :: keyedOut i ps from rfl,
        jsReplace_cons_none _ _ c _ hnone,
        ih i (hasSub_tail hsub) (by simpa [matCount] using hn)]
      rfl
    | mat ts =>
      have hcnt : matCount (Piece.mat ts :: ps) = matCount ps + 1 := rfl
      have hi : i < n := by omega
      have hmatch : mKeys keys (keyOfIdx i ++ keyedOut (i + 1) ps) =
          some (keyOfIdx i, keyedOut (i + 1) ps) :=
        mKeys_at_key keys i _ (hfind i _ hi)
      rw [show keyedOut i (.mat ts :: ps) = keyOfIdx i ++ keyedOut (i + 1) ps
          from rfl,
        jsReplace_match _ (mKeys_consuming keys hne) _ _ _ _ hmatch,
        ih (i + 1)
          (hasSub_drop_left ts
            (show hasSub ['_', '_', 'P'] (ts ++ pieceContent ps) = false from hsub))
          (by omega)]
      rfl

/-! ## The escape pass over the wrapped text -/

theorem escChar_digit {c : Char} (h : c.isDigit = true) : escChar c = [c] := by
  unfold escChar
  rw [if_neg (digit_ne c '&' h (by left; decide)),
    if_neg (digit_ne c '<' h (by right; decide)),
    if_neg (digit_ne c '>' h (by right; decide)),
    if_neg (digit_ne c '"' h (by left; decide)),
    if_neg (digit_ne c '\x27' h (by left; decide))]

theorem flatMap_escChar_fix (A : List Char) (h : ∀ c ∈ A, escChar c = [c]) :
    A.flatMap escChar = A := by
  induction A with
  | nil => rfl
  | cons c cs ih =>
    rw [List.flatMap_cons, h c (List.mem_cons_self c cs),
      ih (fun x hx => h x (List.mem_cons_of_mem c hx))]
    rfl

theorem escChar_wrap_fix (j : Nat) : ∀ c ∈ wrapAts (keyOfIdx j), escChar c = [c] := by
  intro c hc
  rcases List.mem_cons.mp hc with rfl | hc
  · decide
  rcases List.mem_cons.mp hc with rfl | hc
  · decide
  rcases List.mem_append.mp hc with hc | hc
  · rw [keyOfIdx_cons] at hc
    rcases List.mem_cons.mp hc with rfl | hc
    · decide
    rcases List.mem_cons.mp hc with rfl | hc
    · decide
    rcases List.mem_cons.mp hc with rfl | hc
    · decide
    rcases List.mem_append.mp hc with hc | hc
    · exact (show ∀ x ∈ "LACEHOLDER_".data, escChar x = [x] by decide) c hc
    rcases List.mem_append.mp hc with hc | hc
    · exact escChar_digit (natToChars_digits j c hc)
    · exact (show ∀ x ∈ "__".data, escChar x = [x] by decide) c hc
  · exact (show ∀ x ∈ ['@', '@'], escChar x = [x] by decide) c hc

theorem escape_wrapOut (l : List (Piece (List Char))) :
    ∀ i, escapeHtmlL (wrapOut i l) = midOut 0 i l := by
  induction l with
  | nil =>
    intro i
    rw [escapeHtmlL_eq_flatMap]
    rfl
  | cons p ps ih =>
    intro i
    cases p with
    | chr c =>
      rw [show wrapOut i (.chr c :: ps) = c :: wrapOut i ps from rfl,
        escapeHtmlL_eq_flatMap, List.flatMap_cons, ← escapeHtmlL_eq_flatMap, ih i]
      rfl
    | mat ts =>
      rw [show wrapOut i (.mat ts :: ps) = wrapAts (keyOfIdx i) ++ wrapOut (i + 1) ps
          from rfl,
        escapeHtmlL_eq_flatMap, List.flatMap_append,
        flatMap_escChar_fix _ (escChar_wrap_fix i),
        ← escapeHtmlL_eq_flatMap, ih (i + 1)]
      rw [show midOut 0 i (.mat ts :: ps) =
        (if i < 0 then singleVal ts else wrapAts (keyOfIdx i)) ++ midOut 0 (i + 1) ps
        from rfl, if_neg (Nat.not_lt_zero i)]

/-! ## Character facts about restored anchors -/

theorem chars_app {P : Char → Prop} {a b : List Char} (ha : ∀ c ∈ a, P c)
    (hb : ∀ c ∈ b, P c) : ∀ c ∈ a ++ b, P c := by
  intro c hc
  rcases List.mem_append.mp hc with hc | hc
  · exact ha c hc
  · exact hb c hc

theorem chars_cons {P : Char → Prop} {x : Char} {b : List Char} (hx : P x)
    (hb : ∀ c ∈ b, P c) : ∀ c ∈ x :: b, P c := by
  intro c hc
  rcases List.mem_cons.mp hc with rfl | hc
  · exact hx
  · exact hb c hc

theorem chars_pad {P : Char → Prop} (h0 : P '0') {s : List Char}
    (hs : ∀ c ∈ s, P c) : ∀ c ∈ padStart2 s, P c := by
  intro c hc
  unfold padStart2 at hc
  split at hc
  · exact hs c hc
  · rcases List.mem_append.mp hc with hc | hc
    · rw [List.eq_of_mem_replicate hc]
      exact h0
    · exact hs c hc

theorem formatCore_chars (n : Nat) :
    ∀ c ∈ formatCore n, c.isDigit = true ∨ c = ':' := by
  rw [formatCore_eq_canonRender]
  unfold canonRender
  have hd : ∀ m : Nat, ∀ c ∈ natToChars m, c.isDigit = true ∨ c = ':' :=
    fun m c hc => Or.inl (natToChars_digits m c hc)
  have h0 : ('0' : Char).isDigit = true ∨ ('0' : Char) = ':' := Or.inl (by decide)
  split
  · exact chars_app
      (chars_app (hd _) (chars_cons (Or.inr rfl) (chars_pad h0 (hd _))))
      (chars_cons (Or.inr rfl) (chars_pad h0 (hd _)))
  · exact chars_app (hd _) (chars_cons (Or.inr rfl) (chars_pad h0 (hd _)))

theorem intToChars_chars (v : Int) :
    ∀ c ∈ intToChars v, c.isDigit = true ∨ c = '-' := by
  unfold intToChars
  split
  · exact chars_cons (Or.inr rfl) (fun c hc => Or.inl (natToChars_digits _ c hc))
  · exact fun c hc => Or.inl (natToChars_digits _ c hc)

theorem formatTimestampL_chars (x : Option Int) :
    ∀ c ∈ formatTimestampL x, c.isDigit = true ∨ c = ':' := by
  cases x with
  | none => decide
  | some s =>
    intro c hc
    rw [show formatTimestampL (some s) =
      if s < 0 then "0:00".data else formatCore s.toNat from rfl] at hc
    by_cases hlt : s < 0
    · rw [if_pos hlt] at hc
      exact (show ∀ x ∈ "0:00".data, x.isDigit = true ∨ x = ':' by decide) c hc
    · rw [if_neg hlt] at hc
      exact formatCore_chars _ c hc

theorem anchor_no_at (secs disp : List Char) (hs : ∀ c ∈ secs, c ≠ '@')
    (hd : ∀ c ∈ disp, c ≠ '@') : ∀ c ∈ anchorHtml secs disp, c ≠ '@' := by
  unfold anchorHtml
  exact chars_app
    (chars_app
      (chars_app
        (chars_app (show ∀ c ∈ "<a href=\"?start=".data, c ≠ '@' by decide) hs)
        (show ∀ c ∈ "\" class=\"text-blue-600 underline\">".data, c ≠ '@' by decide))
      hd)
    (show ∀ c ∈ "</a>".data, c ≠ '@' by decide)

theorem singleVal_no_at (ts : List Char) (h : TsShape ts) :
    ∀ c ∈ singleVal ts, c ≠ '@' := by
  obtain ⟨v, hv⟩ := tsShape_parse ts h
  unfold singleVal
  rw [hv]
  apply anchor_no_at
  · intro c hc
    rcases intToChars_chars v c hc with hdg | rfl
    · exact digit_ne c '@' hdg (by right; decide)
    · decide
  · intro c hc
    rcases formatTimestampL_chars _ c hc with hdg | rfl
    · exact digit_ne c '@' hdg (by right; decide)
    · decide

theorem singleVal_head (ts : List Char) (h : TsShape ts) :
    ∃ e, singleVal ts = '<' :: e := by
  obtain ⟨v, hv⟩ := tsShape_parse ts h
  unfold singleVal
  rw [hv]
  exact ⟨_, rfl⟩

/-! ## Prefix analysis of the escaped text during restoration -/

theorem no_start_of_hasSub {s : List Char}
    (h : hasSub ['_', '_', 'P'] s = false) : ∀ t, s ≠ '_' :: '_' :: 'P' :: t := by
  intro t ht
  rw [hasSub_of_start ht] at h
  exact absurd h (by simp)

theorem midOut_pfx3 (ps : List (Piece (List Char))) (cur i : Nat) (X : List Char)
    (hg : GoodTs ps) (h3 : ∀ t, pieceContent ps ≠ 'P' :: t) :
    (('P' :: X).isPrefixOf (midOut cur i ps)) = false := by
  cases ps with
  | nil => rfl
  | cons p ps2 =>
    cases p with
    | chr c =>
      rw [show midOut cur i (.chr c :: ps2) = escChar c ++ midOut cur i ps2 from rfl]
      rcases escChar_shape c with heq | ⟨e, heq⟩
      · rw [heq, List.singleton_append, pfx_cons]
        by_cases hc : c = 'P'
        · subst hc
          exact absurd rfl (h3 (pieceContent ps2))
        · rw [show ('P' == c) = false from
            beq_eq_false_iff_ne.mpr (fun h => hc h.symm), Bool.false_and]
      · rw [heq, List.cons_append, pfx_cons]
        rw [show ('P' == '&') = false from rfl, Bool.false_and]
    | mat ts =>
      rw [show midOut cur i (.mat ts :: ps2) =
        (if i < cur then singleVal ts else wrapAts (keyOfIdx i)) ++
          midOut cur (i + 1) ps2 from rfl]
      by_cases hi : i < cur
      · rw [if_pos hi]
        obtain ⟨e, he⟩ := singleVal_head ts (hg ts (List.mem_cons_self _ _))
        rw [he, List.cons_append, pfx_cons]
        rw [show ('P' == '<') = false from rfl, Bool.false_and]
      · rw [if_neg hi]
        rw [show wrapAts (keyOfIdx i) = '@' :: '@' :: (keyOfIdx i ++ ['@', '@'])
          from rfl, List.cons_append, pfx_cons]
        rw [show ('P' == '@') = false from rfl, Bool.false_and]

theorem midOut_pfx2 (ps : List (Piece (List Char))) (cur i : Nat) (X : List Char)
    (hg : GoodTs ps) (h2 : ∀ t, pieceContent ps ≠ '_' :: 'P' :: t) :
    (('_' :: 'P' :: X).isPrefixOf (midOut cur i ps)) = false := by
  cases ps with
  | nil => rfl
  | cons p ps2 =>
    cases p with
    | chr c =>
      rw [show midOut cur i (.chr c :: ps2) = escChar c ++ midOut cur i ps2 from rfl]
      rcases escChar_shape c with heq | ⟨e, heq⟩
      · rw [heq, List.singleton_append, pfx_cons]
        by_cases hc : c = '_'
        · subst hc
          rw [show ('_' == '_') = true from rfl, Bool.true_and]
          refine midOut_pfx3 ps2 cur i X (goodTs_tail hg) (fun t ht => ?_)
          refine h2 t ?_
          show '_' :: pieceContent ps2 = _
          rw [ht]
        · rw [show ('_' == c) = false from
            beq_eq_false_iff_ne.mpr (fun h => hc h.symm), Bool.false_and]
      · rw [heq, List.cons_append, pfx_cons]
        rw [show ('_' == '&') = false from rfl, Bool.false_and]
    | mat ts =>
      rw [show midOut cur i (.mat ts :: ps2) =
        (if i < cur then singleVal ts else wrapAts (keyOfIdx i)) ++
          midOut cur (i + 1) ps2 from rfl]
      by_cases hi : i < cur
      · rw [if_pos hi]
        obtain ⟨e, he⟩ := singleVal_head ts (hg ts (List.mem_cons_self _ _))
        rw [he, List.cons_append, pfx_cons]
        rw [show ('_' == '<') = false from rfl, Bool.false_and]
      · rw [if_neg hi]
        rw [show wrapAts (keyOfIdx i) = '@' :: '@' :: (keyOfIdx i ++ ['@', '@'])
          from rfl, List.cons_append, pfx_cons]
        rw [show ('_' == '@') = false from rfl, Bool.false_and]

theorem midOut_pfx1 (ps : List (Piece (List Char))) (cur i : Nat) (X : List Char)
    (hg : GoodTs ps) (h1 : ∀ t, pieceContent ps ≠ '_' :: '_' :: 'P' :: t) :
    (('_' :: '_' :: 'P' :: X).isPrefixOf (midOut cur i ps)) = false := by
  cases ps with
  | nil => rfl
  | cons p ps2 =>
    cases p with
    | chr c =>
      rw [show midOut cur i (.chr c :: ps2) = escChar c ++ midOut cur i ps2 from rfl]
      rcases escChar_shape c with heq | ⟨e, heq⟩
      · rw [heq, List.singleton_append, pfx_cons]
        by_cases hc : c = '_'
        · subst hc
          rw [show ('_' == '_') = true from rfl, Bool.true_and]
          refine midOut_pfx2 ps2 cur i X (goodTs_tail hg) (fun t ht => ?_)
          refine h1 t ?_
          show '_' :: pieceContent ps2 = _
          rw [ht]
        · rw [show ('_' == c) = false from
            beq_eq_false_iff_ne.mpr (fun h => hc h.symm), Bool.false_and]
      · rw [heq, List.cons_append, pfx_cons]
        rw [show ('_' == '&') = false from rfl, Bool.false_and]
    | mat ts =>
      rw [show midOut cur i (.mat ts :: ps2) =
        (if i < cur then singleVal ts else wrapAts (keyOfIdx i)) ++
          midOut cur (i + 1) ps2 from rfl]
      by_cases hi : i < cur
      · rw [if_pos hi]
        obtain ⟨e, he⟩ := singleVal_head ts (hg ts (List.mem_cons_self _ _))
        rw [he, List.cons_append, pfx_cons]
        rw [show ('_' == '<') = false from rfl, Bool.false_and]
      · rw [if_neg hi]
        rw [show wrapAts (keyOfIdx i) = '@' :: '@' :: (keyOfIdx i ++ ['@', '@'])
          from rfl, List.cons_append, pfx_cons]
        rw [show ('_' == '@') = false from rfl, Bool.false_and]

theorem midOut_pfxA (ps : List (Piece (List Char))) (cur i : Nat) (X : List Char)
    (hg : GoodTs ps)
    (hUUP : hasSub ['_', '_', 'P'] (pieceContent ps) = false) :
    (('@' :: '_' :: '_' :: 'P' :: X).isPrefixOf (midOut cur i ps)) = false := by
  cases ps with
  | nil => rfl
  | cons p ps2 =>
    cases p with
    | chr c =>
      rw [show midOut cur i (.chr c :: ps2) = escChar c ++ midOut cur i ps2 from rfl]
      rcases escChar_shape c with heq | ⟨e, heq⟩
      · rw [heq, List.singleton_append, pfx_cons]
        by_cases hc : c = '@'
        · subst hc
          rw [show ('@' == '@') = true from rfl, Bool.true_and]
          exact midOut_pfx1 ps2 cur i X (goodTs_tail hg)
            (no_start_of_hasSub (hasSub_tail hUUP))
        · rw [show ('@' == c) = false from
            beq_eq_false_iff_ne.mpr (fun h => hc h.symm), Bool.false_and]
      · rw [heq, List.cons_append, pfx_cons]
        rw [show ('@' == '&') = false from rfl, Bool.false_and]
    | mat ts =>
      rw [show midOut cur i (.mat ts :: ps2) =
        (if i < cur then singleVal ts else wrapAts (keyOfIdx i)) ++
          midOut cur (i + 1) ps2 from rfl]
      by_cases hi : i < cur
      · rw [if_pos hi]
        obtain ⟨e, he⟩ := singleVal_head ts (hg ts (List.mem_cons_self _ _))
        rw [he, List.cons_append, pfx_cons]
        rw [show ('@' == '<') = false from rfl, Bool.false_and]
      · rw [if_neg hi]
        rw [show wrapAts (keyOfIdx i) = '@' :: '@' :: (keyOfIdx i ++ ['@', '@'])
          from rfl, List.cons_append, pfx_cons, List.cons_append, pfx_cons]
        rw [show ('_' == '@') = false from rfl, Bool.false_and, Bool.and_false]

/-! ## Token-matcher step lemmas -/

theorem mTok_none_of_pfx {t s : List Char} (h : t.isPrefixOf s = false) :
    mTok t s = none := by
  unfold mTok
  rw [if_neg]
  rintro ⟨-, h2⟩
  rw [h] at h2
  exact Bool.false_ne_true h2

theorem mTok_match (t rest : List Char) (hne : t ≠ []) :
    mTok t (t ++ rest) = some ((), rest) := by
  unfold mTok
  rw [if_pos ⟨hne, by rw [pfx_self_app]⟩, List.drop_left]

theorem mTok_consuming (t : List Char) (hne : t ≠ []) : Consuming (mTok t) := by
  intro s g r h
  unfold mTok at h
  split at h
  next hcond =>
    injection h with h2
    have hlen : 0 < t.length := List.length_pos.mpr hne
    cases s with
    | nil =>
      exfalso
      obtain ⟨-, hpfx⟩ := hcond
      cases ht : t with
      | nil => exact hne ht
      | cons c t2 =>
        rw [ht, pfx_nil_right] at hpfx
        exact Bool.false_ne_true hpfx
    | cons c cs =>
      have : r = (c :: cs).drop t.length := by
        injection h2.symm with h3 h4
      rw [this, List.length_drop]
      simp only [List.length_cons]
      omega
  next => exact absurd h (by simp)

theorem jsReplace_pass_noAt (p1 : List Char) {pat : List Char}
    (hpat : pat = '@' :: p1) (cb : Unit → List Char) :
    ∀ (A rest : List Char), (∀ c ∈ A, c ≠ '@') →
    jsReplace (mTok pat) cb (A ++ rest) = A ++ jsReplace (mTok pat) cb rest := by
  intro A
  induction A with
  | nil => intro rest _; rfl
  | cons a A2 ih =>
    intro rest hA
    have ha : a ≠ '@' := hA a (List.mem_cons_self a A2)
    have hnone : mTok pat (a :: (A2 ++ rest)) = none := by
      apply mTok_none_of_pfx
      rw [hpat, pfx_cons,
        show ('@' == a) = false from beq_eq_false_iff_ne.mpr (fun h => ha h.symm),
        Bool.false_and]
    rw [List.cons_append, jsReplace_cons_none _ _ _ _ hnone,
      ih rest (fun c hc => hA c (List.mem_cons_of_mem a hc))]
    rfl

theorem jsReplace_pass_atBlock (cb : Unit → List Char) (pat : List Char)
    (B rest : List Char) (p1 : List Char) (hpat : pat = '@' :: p1)
    (hB : ∀ c ∈ B, c ≠ '@')
    (h0 : pat.isPrefixOf ('@' :: '@' :: (B ++ ('@' :: '@' :: rest))) = false)
    (h1 : pat.isPrefixOf ('@' :: (B ++ ('@' :: '@' :: rest))) = false)
    (h2 : pat.isPrefixOf ('@' :: '@' :: rest) = false)
    (h3 : pat.isPrefixOf ('@' :: rest) = false) :
    jsReplace (mTok pat) cb (('@' :: '@' :: (B ++ ['@', '@'])) ++ rest) =
      ('@' :: '@' :: (B ++ ['@', '@'])) ++ jsReplace (mTok pat) cb rest := by
  have e1 : ('@' :: '@' :: (B ++ ['@', '@'])) ++ rest =
      '@' :: '@' :: (B ++ ('@' :: '@' :: rest)) := by
    simp
  rw [e1,
    jsReplace_cons_none _ _ _ _ (mTok_none_of_pfx h0),
    jsReplace_cons_none _ _ _ _ (mTok_none_of_pfx h1),
    jsReplace_pass_noAt p1 hpat cb B _ hB,
    jsReplace_cons_none _ _ _ _ (mTok_none_of_pfx h2),
    jsReplace_cons_none _ _ _ _ (mTok_none_of_pfx h3)]
  simp

/-! ## One restore iteration -/

theorem restore_step_main (cur : Nat) (v : List Char) :
    ∀ (l : List (Piece (List Char))) (i : Nat), GoodTs l →
    hasSub ['_', '_', 'P'] (pieceContent l) = false →
    (∀ ts k, i + k = cur → nthMat l k = some ts → v = singleVal ts) →
    jsReplace (mTok (wrapAts (keyOfIdx cur))) (fun _ => v) (midOut cur i l) =
      midOut (cur + 1) i l := by
  have hpat1 : wrapAts (keyOfIdx cur) =
      '@' :: ('@' :: (keyOfIdx cur ++ ['@', '@'])) := rfl
  have hpne : wrapAts (keyOfIdx cur) ≠ [] := by rw [hpat1]; simp
  intro l
  induction l with
  | nil => intro i _ _ _; rfl
  | cons p ps ih =>
    intro i hg hUUP hv
    have hg2 := goodTs_tail hg
    cases p with
    | chr c =>
      have hUUP2 : hasSub ['_', '_', 'P'] (pieceContent ps) = false :=
        hasSub_tail hUUP
      have hv2 : ∀ ts k, i + k = cur → nthMat ps k = some ts → v = singleVal ts :=
        fun ts k hk hm => hv ts k hk hm
      rw [show midOut cur i (.chr c :: ps) = escChar c ++ midOut cur i ps from rfl,
        show midOut (cur + 1) i (.chr c :: ps) = escChar c ++ midOut (cur + 1) i ps
          from rfl]
      rcases escChar_shape c with heq | ⟨e, heq⟩
      · by_cases hc : c = '@'
        · subst hc
          rw [heq, List.singleton_append]
          have hnone :
              mTok (wrapAts (keyOfIdx cur)) ('@' :: midOut cur i ps) = none := by
            apply mTok_none_of_pfx
            rw [hpat1, pfx_cons, show ('@' == '@') = true from rfl, Bool.true_and,
              keyOfIdx_cons cur, List.cons_append, List.cons_append,
              List.cons_append]
            exact midOut_pfxA ps cur i _ hg2 hUUP2
          rw [jsReplace_cons_none _ _ _ _ hnone, ih i hg2 hUUP2 hv2]
          rfl
        · rw [heq, List.singleton_append]
          have hnone :
              mTok (wrapAts (keyOfIdx cur)) (c :: midOut cur i ps) = none := by
            apply mTok_none_of_pfx
            rw [hpat1, pfx_cons,
              show ('@' == c) = false from
                beq_eq_false_iff_ne.mpr (fun h => hc h.symm),
              Bool.false_and]
          rw [jsReplace_cons_none _ _ _ _ hnone, ih i hg2 hUUP2 hv2]
          rfl
      · rw [heq,
          jsReplace_pass_noAt _ hpat1 _ ('&' :: e) _ (escChar_entity_no_at heq),
          ih i hg2 hUUP2 hv2]
    | mat ts =>
      have hUUP2 : hasSub ['_', '_', 'P'] (pieceContent ps) = false :=
        hasSub_drop_left ts hUUP
      rcases Nat.lt_trichotomy i cur with hlt | heqc | hgt
      · have hv2 : ∀ ts' k, (i + 1) + k = cur → nthMat ps k = some ts' →
            v = singleVal ts' :=
          fun ts' k hk hm => hv ts' (k + 1) (by omega) hm
        rw [show midOut cur i (.mat ts :: ps) =
            (if i < cur then singleVal ts else wrapAts (keyOfIdx i)) ++
              midOut cur (i + 1) ps from rfl,
          if_pos hlt,
          jsReplace_pass_noAt _ hpat1 _ (singleVal ts) _
            (singleVal_no_at ts (hg ts (List.mem_cons_self _ _))),
          ih (i + 1) hg2 hUUP2 hv2,
          show midOut (cur + 1) i (.mat ts :: ps) =
            (if i < cur + 1 then singleVal ts else wrapAts (keyOfIdx i)) ++
              midOut (cur + 1) (i + 1) ps from rfl,
          if_pos (by omega)]
      · subst heqc
        have hvts : v = singleVal ts := hv ts 0 (by omega) rfl
        have hv2 : ∀ ts' k, (i + 1) + k = i → nthMat ps k = some ts' →
            v = singleVal ts' :=
          fun ts' k hk _ => absurd hk (by omega)
        rw [show midOut i i (.mat ts :: ps) =
            (if i < i then singleVal ts else wrapAts (keyOfIdx i)) ++
              midOut i (i + 1) ps from rfl,
          if_neg (lt_irrefl i),
          jsReplace_match _ (mTok_consuming _ hpne) _ _ _ _ (mTok_match _ _ hpne),
          ih (i + 1) hg2 hUUP2 hv2,
          show midOut (i + 1) i (.mat ts :: ps) =
            (if i < i + 1 then singleVal ts else wrapAts (keyOfIdx i)) ++
              midOut (i + 1) (i + 1) ps from rfl,
          if_pos (by omega), hvts]
      · have hv2 : ∀ ts' k, (i + 1) + k = cur → nthMat ps k = some ts' →
            v = singleVal ts' :=
          fun ts' k hk hm => hv ts' (k + 1) (by omega) hm
        have hine : i ≠ cur := by omega
        have h0 : (wrapAts (keyOfIdx cur)).isPrefixOf
            ('@' :: '@' :: (keyOfIdx i ++ ('@' :: '@' :: midOut cur (i + 1) ps))) =
              false := by
          have e2 : '@' :: '@' :: (keyOfIdx i ++ ('@' :: '@' :: midOut cur (i + 1) ps)) =
              wrapAts (keyOfIdx i) ++ midOut cur (i + 1) ps := by
            simp [wrapAts]
          rw [e2]
          exact wrap_ne_pfx i cur _ hine
        have h1 : (wrapAts (keyOfIdx cur)).isPrefixOf
            ('@' :: (keyOfIdx i ++ ('@' :: '@' :: midOut cur (i + 1) ps))) = false := by
          rw [hpat1, pfx_cons, show ('@' == '@') = true from rfl, Bool.true_and,
            keyOfIdx_cons i, List.cons_append, pfx_cons,
            show ('@' == '_') = false from rfl, Bool.false_and]
        have h2 : (wrapAts (keyOfIdx cur)).isPrefixOf
            ('@' :: '@' :: midOut cur (i + 1) ps) = false := by
          rw [hpat1, pfx_cons, show ('@' == '@') = true from rfl, Bool.true_and,
            pfx_cons, show ('@' == '@') = true from rfl, Bool.true_and,
            keyOfIdx_cons cur, List.cons_append, List.cons_append, List.cons_append]
          exact midOut_pfx1 ps cur (i + 1) _ hg2 (no_start_of_hasSub hUUP2)
        have h3 : (wrapAts (keyOfIdx cur)).isPrefixOf
            ('@' :: midOut cur (i + 1) ps) = false := by
          rw [hpat1, pfx_cons, show ('@' == '@') = true from rfl, Bool.true_and,
            keyOfIdx_cons cur, List.cons_append, List.cons_append, List.cons_append]
          exact midOut_pfxA ps cur (i + 1) _ hg2 hUUP2
        rw [show midOut cur i (.mat ts :: ps) =
            (if i < cur then singleVal ts else wrapAts (keyOfIdx i)) ++
              midOut cur (i + 1) ps from rfl,
          if_neg (by omega),
          show wrapAts (keyOfIdx i) = '@' :: '@' :: (keyOfIdx i ++ ['@', '@'])
            from rfl,
          jsReplace_pass_atBlock _ _ (keyOfIdx i) _ _ hpat1 (keyOfIdx_no_at i)
            h0 h1 h2 h3,
          ih (i + 1) hg2 hUUP2 hv2,
          show midOut (cur + 1) i (.mat ts :: ps) =
            (if i < cur + 1 then singleVal ts else wrapAts (keyOfIdx i)) ++
              midOut (cur + 1) (i + 1) ps from rfl,
          if_neg (by omega),
          show wrapAts (keyOfIdx i) = '@' :: '@' :: (keyOfIdx i ++ ['@', '@'])
            from rfl]

/-! ## The full restore loop and the final rendering -/

/-- The fully restored rendering: literal characters HTML-escaped, each
matched timestamp replaced by its recorded markup. -/
def renderAll : List (Piece (List Char)) → List Char
  | [] => []
  | .chr c :: ps => escChar c ++ renderAll ps
  | .mat ts :: ps => singleVal ts ++ renderAll ps

theorem restore_fold (L : List (Piece (List Char))) (hgL : GoodTs L)
    (hUUPL : hasSub ['_', '_', 'P'] (pieceContent L) = false) :
    ∀ (l : List (Piece (List Char))) (i : Nat),
    (∀ k, nthMat l k = nthMat L (i + k)) →
    (anchorsOf i l).foldl restoreStep (midOut i 0 L) =
      midOut (i + matCount l) 0 L := by
  intro l
  induction l with
  | nil => intro i _; rfl
  | cons p ps ih =>
    intro i hrel
    cases p with
    | chr c => exact ih i hrel
    | mat ts =>
      rw [show anchorsOf i (.mat ts :: ps) =
          (keyOfIdx i, singleVal ts) :: anchorsOf (i + 1) ps from rfl,
        List.foldl_cons,
        show i + matCount (.mat ts :: ps) = (i + 1) + matCount ps from by
          rw [show matCount (.mat ts :: ps) = matCount ps + 1 from rfl]
          omega]
      have hstep : restoreStep (midOut i 0 L) (keyOfIdx i, singleVal ts) =
          midOut (i + 1) 0 L := by
        show jsReplace (mTok (wrapAts (keyOfIdx i))) (fun _ => singleVal ts)
          (midOut i 0 L) = _
        refine restore_step_main i (singleVal ts) L 0 hgL hUUPL ?_
        intro ts' k hk hm
        have hk2 : k = i := by omega
        subst hk2
        have h0 := hrel 0
        rw [show nthMat (.mat ts :: ps) 0 = some ts from rfl, Nat.add_zero] at h0
        rw [hm] at h0
        injection h0 with h1
        rw [h1]
      rw [hstep]
      exact ih (i + 1) (fun k => by
        rw [show (i + 1) + k = i + (k + 1) from by omega]
        exact hrel (k + 1))

theorem midOut_all (n : Nat) :
    ∀ (l : List (Piece (List Char))) (i : Nat), i + matCount l ≤ n →
    midOut n i l = renderAll l := by
  intro l
  induction l with
  | nil => intro i _; rfl
  | cons p ps ih =>
    intro i hle
    cases p with
    | chr c =>
      rw [show midOut n i (.chr c :: ps) = escChar c ++ midOut n i ps from rfl,
        ih i (by simpa [matCount] using hle),
        show renderAll (.chr c :: ps) = escChar c ++ renderAll ps from rfl]
    | mat ts =>
      have hcnt : matCount (.mat ts :: ps) = matCount ps + 1 := rfl
      rw [show midOut n i (.mat ts :: ps) =
          (if i < n then singleVal ts else wrapAts (keyOfIdx i)) ++
            midOut n (i + 1) ps from rfl,
        if_pos (by omega),
        ih (i + 1) (by omega),
        show renderAll (.mat ts :: ps) = singleVal ts ++ renderAll ps from rfl]

theorem renderAll_nomat :
    ∀ (l : List (Piece (List Char))) (i : Nat), keyList i l = [] →
    escapeHtmlL (keyedOut i l) = renderAll l := by
  intro l
  induction l with
  | nil =>
    intro i _
    rw [escapeHtmlL_eq_flatMap]
    rfl
  | cons p ps ih =>
    intro i hk
    cases p with
    | chr c =>
      rw [show keyedOut i (.chr c :: ps) = c :: keyedOut i ps from rfl,
        escapeHtmlL_eq_flatMap, List.flatMap_cons, ← escapeHtmlL_eq_flatMap,
        ih i hk,
        show renderAll (.chr c :: ps) = escChar c ++ renderAll ps from rfl]
    | mat ts =>
      rw [show keyList i (.mat ts :: ps) = keyOfIdx i :: keyList (i + 1) ps
        from rfl] at hk
      exact absurd hk (by simp)

theorem assemble_single (L : List (Piece (List Char))) (hgood : GoodTs L)
    (hUUPl : hasSub ['_', '_', 'P'] (pieceContent L) = false) :
    assembleEscaped (keyedOut 0 L) (anchorsOf 0 L) [] = renderAll L := by
  have hfst : (anchorsOf 0 L).map Prod.fst = keyList 0 L := anchors_fst L 0
  by_cases hemp : keyList 0 L = []
  · simp only [assembleEscaped, hfst, List.map_nil, List.isEmpty_nil,
      Bool.and_true, hemp, if_true]
    exact renderAll_nomat L 0 hemp
  · simp only [assembleEscaped, hfst, List.map_nil, List.isEmpty_nil,
      Bool.and_true]
    rw [if_neg (fun hcontra => hemp (List.isEmpty_iff.mp hcontra))]
    have hfind : ∀ j t, j < matCount L →
        (keyList 0 L).find? (fun k => k.isPrefixOf (keyOfIdx j ++ t)) =
          some (keyOfIdx j) :=
      fun j t hj => keyList_find_at L 0 j t (Nat.zero_le j) (by omega)
    rw [List.append_nil,
      wrap_out (matCount L) (keyList 0 L) hfind (keyList_mem L 0) L 0 hUUPl
        (by omega),
      escape_wrapOut L 0, List.foldl_nil,
      restore_fold L hgood hUUPl L 0 (fun k => by rw [Nat.zero_add]),
      Nat.zero_add]
    exact midOut_all (matCount L) L 0 (by omega)

/-! ## Claim C2 -/

theorem transform_single_only (raw : List Char)
    (hbold : hasRxMatch mBold (preprocessL raw) = false)
    (hyt : hasRxMatch mYt (preprocessL raw) = false)
    (hrange : hasRxMatch mRange (preprocessL raw) = false)
    (hUUP : hasSub ['_', '_', 'P'] (preprocessL raw) = false) :
    transformAnswerL raw =
      replaceTok NEWLINE_PH "<br/>".data
        (renderAll (scanRx matchTs (preprocessL raw))) := by
  have hgood : GoodTs (scanRx matchTs (preprocessL raw)) := by
    intro ts hts
    obtain ⟨s2, r, hm⟩ := scanGo_mat_origin matchTs _ _ ts hts
    exact (matchTs_inv s2 ts r hm).2.2
  have hUUPl : hasSub ['_', '_', 'P']
      (pieceContent (scanRx matchTs (preprocessL raw))) = false := by
    rw [scanRx_content matchTs matchTs_consuming matchTs_sound]
    exact hUUP
  unfold transformAnswerL
  simp only [jsReplaceSt_nomatch mBold boldCb
      ((0 : Nat), ([] : List (List Char × List Char))) (preprocessL raw) hbold,
    jsReplaceSt_nomatch mYt ytCb
      ((0 : Nat), ([] : List (List Char × List Char))) (preprocessL raw) hyt,
    jsReplaceSt_nomatch mRange rangeCb
      ((0 : Nat), ([] : List (List Char × List Char))) (preprocessL raw) hrange,
    show jsReplaceSt matchTs singleCb
        ((0 : Nat), ([] : List (List Char × List Char))) (preprocessL raw) =
      (keyedOut 0 (scanRx matchTs (preprocessL raw)),
        (0 + matCount (scanRx matchTs (preprocessL raw)),
          [] ++ anchorsOf 0 (scanRx matchTs (preprocessL raw)))) from
      runRepl_single _ 0 [] hgood,
    List.nil_append]
  rw [assemble_single _ hgood hUUPl]

/-- Claim C2, as stated, is false: a timestamp-shaped substring need not be
replaced by an anchor carrying its own second-count, because the earlier
range pass claims it first.  In `"1:00-2:00"` the substring `"2:00"` matches
the single-timestamp shape and denotes `120` seconds, yet the output renders
the whole range as one anchor for the start (`?start=60`) with the end shown
as plain text, and no `?start=120` anchor exists anywhere in the output. -/
theorem claim_C2_cex :
    preprocessL "1:00-2:00".data = "1:00-2:00".data ∧
    hasSub "2:00".data "1:00-2:00".data = true ∧
    parseTimestampL "2:00".data = some 120 ∧
    transformAnswer "1:00-2:00" =
      "(<a href=\"?start=60\" class=\"text-blue-600 underline\">1:00</a>–2:00)" ∧
    hasSub "?start=120".data (transformAnswer "1:00-2:00").data = false := by
  refine ⟨rfl, rfl, rfl, ?_, ?_⟩
  · decide
  · decide

/-- Claim C2 (amended): on answer text whose preprocessed form triggers none
of the earlier annotation passes (no markdown-bold, YouTube-link or range
match) and contains no `__P` placeholder stem, `transformAnswer` rewrites
exactly the matches of the single-timestamp scan: every matched timestamp
`ts` parses as some second-count `v` and becomes the anchor
`<a href="?start=v" …>formatted v</a>`, with `v = mm*60 + ss` for the
two-component form and `v = hh*3600 + mm*60 + ss` for the three-component
form, while every remaining literal character is HTML-escaped and newline
placeholders become `<br/>`. -/
theorem claim_C2_amended (raw : String)
    (hbold : hasRxMatch mBold (preprocessL raw.data) = false)
    (hyt : hasRxMatch mYt (preprocessL raw.data) = false)
    (hrange : hasRxMatch mRange (preprocessL raw.data) = false)
    (hUUP : hasSub "__P".data (preprocessL raw.data) = false) :
    transformAnswer raw =
      ⟨replaceTok NEWLINE_PH "<br/>".data
        (renderAll (scanRx matchTs (preprocessL raw.data)))⟩ ∧
    ∀ ts, Piece.mat ts ∈ scanRx matchTs (preprocessL raw.data) →
      ∃ v : Int, parseTimestampL ts = some v ∧
        singleVal ts = anchorHtml (intToChars v) (formatTimestampL (some v)) ∧
        ((∃ mm ss : Int, (jsSplit ':' ts).map jsParseInt = [some mm, some ss] ∧
            v = mm * 60 + ss) ∨
          (∃ hh mm ss : Int,
            (jsSplit ':' ts).map jsParseInt = [some hh, some mm, some ss] ∧
            v = hh * 3600 + mm * 60 + ss)) := by
  constructor
  · show String.mk (transformAnswerL raw.data) = _
    rw [transform_single_only raw.data hbold hyt hrange hUUP]
  · intro ts hts
    have hshape : TsShape ts := by
      obtain ⟨s2, r, hm⟩ := scanGo_mat_origin matchTs _ _ ts hts
      exact (matchTs_inv s2 ts r hm).2.2
    obtain ⟨v, hv⟩ := tsShape_parse ts hshape
    refine ⟨v, hv, ?_, ?_⟩
    · unfold singleVal
      rw [hv]
    · rcases tsShape_parts ts hshape with ⟨mm, ss, hmap⟩ | ⟨hh, mm, ss, hmap⟩
      · left
        refine ⟨mm, ss, hmap, ?_⟩
        have h2 := parse_two_aux ts mm ss hmap
        rw [hv] at h2
        exact Option.some.inj h2
      · right
        refine ⟨hh, mm, ss, hmap, ?_⟩
        have h2 := parse_three_aux ts hh mm ss hmap
        rw [hv] at h2
        exact Option.some.inj h2

theorem claim_C2_witness :
    hasRxMatch mBold (preprocessL "See 1:02:05 ok".data) = false ∧
    hasRxMatch mYt (preprocessL "See 1:02:05 ok".data) = false ∧
    hasRxMatch mRange (preprocessL "See 1:02:05 ok".data) = false ∧
    hasSub "__P".data (preprocessL "See 1:02:05 ok".data) = false ∧
    transformAnswer "See 1:02:05 ok" =
      "See <a href=\"?start=3725\" class=\"text-blue-600 underline\">1:02:05</a> ok" :=
  ⟨rfl, rfl, rfl, rfl,
    ((claim_C2_amended "See 1:02:05 ok" rfl rfl rfl rfl).1).trans (by decide)⟩
